import Mathlib

/-!
Verification of the lbrycrd claimtrie core: a shallow embedding of
`claimtrie/node/node.go`, `claimtrie/merkletrie/merkletrie.go` and the
dispatch switch of `claimtrie/cmd/cmd/chain.go`, together with theorems
about the per-name node state machine, the Merkle prefix trie and the
replay driver.

Go `int32`/`int64` values are modelled as `Int` (no overflow is exercised
by any statement below except the explicit `2147483647` sentinel of
`NextUpdate`, which is kept literally).  Pointer-mutation of claims inside
a node is modelled by functional update of the claim lists; the `BestClaim`
pointer is modelled as a value snapshot.
-/

namespace LbryNode

/-- Claim status, per the spec data model: Accepted, Activated, Deactivated. -/
inductive Status where
  | Accepted : Status
  | Activated : Status
  | Deactivated : Status
deriving DecidableEq, Repr

/-- An outpoint: transaction hash (32 bytes, modelled as a byte list) plus output index. -/
structure OutPoint where
  txHash : List Nat
  index : Nat
deriving DecidableEq, Repr

/-- Byte-wise (lexicographic) strict comparison of byte strings, as bytes.Compare. -/
def bytesLess : List Nat → List Nat → Bool
  | [], [] => false
  | [], _ :: _ => true
  | _ :: _, [] => false
  | a :: as, b :: bs => if a < b then true else if b < a then false else bytesLess as bs

/-- Modelled from the spec: `OutPointLess` (claim.go is not under src/); ordering
is by tx_hash byte-wise, then by index. -/
def OutPointLess (a b : OutPoint) : Bool :=
  if bytesLess a.txHash b.txHash then true
  else if bytesLess b.txHash a.txHash then false
  else decide (a.index < b.index)

/-- A claim record (also used for supports), per node.go and the spec data model. -/
structure Claim where
  outPoint : OutPoint
  claimID : List Nat
  amount : Int
  value : List Nat
  acceptedAt : Int
  activeAt : Int
  visibleAt : Int
  status : Status
deriving DecidableEq, Repr

/-- Modelled from the spec: `Claim.ExpireAt` (claim.go is not under src/);
expires_at is derived as accepted_at + ExpirationFor(accepted_at), where the
expiration function is a chain parameter. -/
def Claim.expireAt (expFor : Int → Int) (c : Claim) : Int :=
  c.acceptedAt + expFor c.acceptedAt

/-- Modelled from the spec: `Claim.EffectiveAmount` (claim.go is not under src/);
the claim's own amount plus the amounts of all Activated supports whose
claim_id matches. -/
def Claim.effectiveAmount (supports : List Claim) (c : Claim) : Int :=
  supports.foldl
    (fun acc s =>
      if s.status = Status.Activated ∧ s.claimID = c.claimID then acc + s.amount else acc)
    c.amount

/-- The per-name node state: best claim (value snapshot of the Go pointer),
takeover height, claims and supports. -/
structure Node where
  bestClaim : Option Claim
  takenOverAt : Int
  claims : List Claim
  supports : List Claim
deriving DecidableEq, Repr

/-- The empty node, as returned by node.New(). -/
def Node.new : Node := ⟨none, 0, [], []⟩

/-- Change types, per the change record of the spec. -/
inductive ChangeType where
  | AddClaim : ChangeType
  | SpendClaim : ChangeType
  | UpdateClaim : ChangeType
  | AddSupport : ChangeType
  | SpendSupport : ChangeType
deriving DecidableEq, Repr

/-- A change record.  The outpoint is kept structured (its string form is only
an ingress concern in the Go code). -/
structure Change where
  type : ChangeType
  name : List Nat
  outPoint : OutPoint
  claimID : List Nat
  amount : Int
  value : List Nat
  height : Int
  visibleHeight : Int
deriving DecidableEq, Repr

/-- Functional update of the first list element satisfying `p` (models mutating
through the pointer returned by ClaimList.find). -/
def updateFirst (p : Claim → Bool) (f : Claim → Claim) : List Claim → List Claim
  | [] => []
  | c :: rest => if p c then f c :: rest else c :: updateFirst p f rest

/-- Node.ApplyChange from node.go.  The Go function always returns a nil error,
so the model returns the updated node; absence of the referenced claim or
support leaves the node unchanged (warnings are prints, not semantics). -/
def Node.applyChange (n : Node) (chg : Change) (delay : Int) : Node :=
  let out := chg.outPoint
  let visibleAt := if chg.visibleHeight ≤ 0 then chg.height else chg.visibleHeight
  match chg.type with
  | ChangeType.AddClaim =>
      let c : Claim :=
        { outPoint := out
          amount := chg.amount
          claimID := chg.claimID
          acceptedAt := chg.height
          activeAt := chg.height + delay
          value := chg.value
          visibleAt := visibleAt
          status := Status.Accepted }
      { n with claims := n.claims ++ [c] }
  | ChangeType.SpendClaim =>
      let cs := updateFirst (fun c => decide (c.outPoint = out))
        (fun c => { c with status := Status.Deactivated }) n.claims
      { n with claims := cs }
  | ChangeType.UpdateClaim =>
      match n.claims.find? (fun c => decide (c.claimID = chg.claimID)) with
      | some c =>
          if c.status = Status.Deactivated then
            let upd := fun (d : Claim) =>
              { d with
                outPoint := out
                amount := chg.amount
                value := chg.value
                status := Status.Accepted
                acceptedAt := chg.height
                activeAt := chg.height + delay }
            let cs := updateFirst (fun d => decide (d.claimID = chg.claimID)) upd n.claims
            { n with claims := cs }
          else n
      | none => n
  | ChangeType.AddSupport =>
      let s : Claim :=
        { outPoint := out
          amount := chg.amount
          claimID := chg.claimID
          acceptedAt := chg.height
          activeAt := chg.height + delay
          value := chg.value
          visibleAt := visibleAt
          status := Status.Accepted }
      { n with supports := n.supports ++ [s] }
  | ChangeType.SpendSupport =>
      let ss := updateFirst (fun s => decide (s.outPoint = out))
        (fun s => { s with status := Status.Deactivated }) n.supports
      { n with supports := ss }

/-- One pass of the in-place sweep of handleExpiredAndActivated: at index `i`,
promote an Accepted entry whose active and visible heights have arrived, then
remove it (swap-with-last and truncate, re-examining the swapped-in element)
when it is expired or Deactivated.  `changes` counts promotions and removals. -/
def sweepLoop (expFor : Int → Int) (height : Int) (items : List Claim) (i : Nat)
    (changes : Nat) : List Claim × Nat :=
  if hi : i < items.length then
    let c0 := items.get ⟨i, hi⟩
    let promoted : Bool :=
      decide (c0.status = Status.Accepted ∧ c0.activeAt ≤ height ∧ c0.visibleAt ≤ height)
    let c1 := if promoted then { c0 with status := Status.Activated } else c0
    let changes1 := if promoted then changes + 1 else changes
    let items1 := items.set i c1
    if c1.expireAt expFor ≤ height ∨ c1.status = Status.Deactivated then
      let last := items1.getD (items1.length - 1) c1
      sweepLoop expFor height ((items1.set i last).dropLast) i (changes1 + 1)
    else
      sweepLoop expFor height items1 (i + 1) changes1
  else (items, changes)
termination_by items.length - i
decreasing_by
  · simp only [List.length_dropLast, List.length_set]
    omega
  · simp only [List.length_set]
    omega

/-- Node.handleExpiredAndActivated from node.go: sweep the claims and the
supports at the given height, returning the number of changes. -/
def Node.handleExpiredAndActivated (expFor : Int → Int) (n : Node) (height : Int) :
    Node × Nat :=
  let cs := sweepLoop expFor height n.claims 0 0
  let ss := sweepLoop expFor height n.supports 0 0
  ({ n with claims := cs.1, supports := ss.1 }, cs.2 + ss.2)

/-- The per-entry contribution of Node.NextUpdate: fold the running minimum
through one claim or support. -/
def nextUpdateStep (expFor : Int → Int) (next : Int) (c : Claim) : Int :=
  let next := if c.expireAt expFor < next then c.expireAt expFor else next
  if c.status = Status.Accepted then
    let m := if c.visibleAt > c.activeAt then c.visibleAt else c.activeAt
    if m < next then m else next
  else next

/-- Node.NextUpdate from node.go: the nearest future refresh height, starting
from the int32 sentinel 2147483647. -/
def Node.nextUpdate (expFor : Int → Int) (n : Node) : Int :=
  n.supports.foldl (nextUpdateStep expFor)
    (n.claims.foldl (nextUpdateStep expFor) 2147483647)

/-- One iteration of the findBestClaim loop: the accumulator carries the
current best claim and the lazily-cached best effective amount. -/
def fbStep (supports : List Claim) (acc : Option Claim × Int) (candidate : Claim) :
    Option Claim × Int :=
  if candidate.status ≠ Status.Activated then acc
  else
    match acc with
    | (none, a) => (some candidate, a)
    | (some best, cached) =>
      let candidateAmount := candidate.effectiveAmount supports
      let bestAmount := if cached ≤ 0 then best.effectiveAmount supports else cached
      if candidateAmount > bestAmount then (some candidate, candidateAmount)
      else if candidateAmount < bestAmount then (some best, bestAmount)
      else if candidate.acceptedAt < best.acceptedAt then (some candidate, candidateAmount)
      else if candidate.acceptedAt > best.acceptedAt then (some best, bestAmount)
      else if OutPointLess candidate.outPoint best.outPoint then (some candidate, candidateAmount)
      else (some best, bestAmount)

/-- Node.findBestClaim from node.go: scan the claims, keeping the best
Activated one under the effective-amount, accepted-at, outpoint order. -/
def Node.findBestClaim (n : Node) : Option Claim :=
  (n.claims.foldl (fbStep n.supports) (none, 0)).1

/-- The in-place activation applied by activateAllClaims to a single entry:
an Accepted, visible, not-yet-active entry gets its active height pulled to
`height` and its status set to Activated. -/
def forceActivate (height : Int) (c : Claim) : Claim :=
  if c.status = Status.Accepted ∧ height < c.activeAt ∧ c.visibleAt ≤ height then
    { c with activeAt := height, status := Status.Activated }
  else c

/-- The activation condition of activateAllClaims, as a Bool for counting. -/
def forceActivateCond (height : Int) (c : Claim) : Bool :=
  decide (c.status = Status.Accepted ∧ height < c.activeAt ∧ c.visibleAt ≤ height)

/-- Node.activateAllClaims from node.go: activate in place every Accepted,
visible, not-yet-active claim and support; return the count of activations. -/
def Node.activateAllClaims (n : Node) (height : Int) : Node × Nat :=
  ({ n with
      claims := n.claims.map (forceActivate height)
      supports := n.supports.map (forceActivate height) },
    n.claims.countP (forceActivateCond height) + n.supports.countP (forceActivateCond height))

/-- Modelled from the spec: the chain parameters consulted by
updateTakeoverHeight (package param is not under src/): the
MaxRemovalWorkaroundHeight bound and the configured (height, name)
takeover-workaround lookup. -/
structure TakeoverEnv where
  maxRemovalWorkaroundHeight : Int
  isWorkaround : Int → List Nat → Bool

/-- The takeover test of updateTakeoverHeight: no candidate, or no Activated
current winner, or a candidate with a different claim_id than the current
winner. -/
def Node.takeoverCond (n : Node) (candidate0 : Option Claim) : Bool :=
  let hasCandidate := candidate0.isSome
  let hasCurrentWinner : Bool :=
    match n.bestClaim with
    | some b => decide (b.status = Status.Activated)
    | none => false
  !hasCandidate || !hasCurrentWinner ||
    decide (Option.map Claim.claimID candidate0 ≠ Option.map Claim.claimID n.bestClaim)

/-- Node.updateTakeoverHeight from node.go.  `refindBest` is the `changed`
flag of the caller; the candidate is re-found when it is set.  When a takeover
is happening the Accepted, visible, not-yet-active entries are force-activated
in place (at any height); when no takeover is happening and the height is
below MaxRemovalWorkaroundHeight, the configured workaround table can force
one. -/
def Node.updateTakeoverHeight (env : TakeoverEnv) (n : Node) (height : Int)
    (name : List Nat) (refindBest : Bool) : Node :=
  let candidate0 := if refindBest then n.findBestClaim else n.bestClaim
  let takeover0 : Bool := n.takeoverCond candidate0
  let activated :=
    if takeover0 then
      let na := n.activateAllClaims height
      if 0 < na.2 then (na.1, na.1.findBestClaim) else (na.1, candidate0)
    else (n, candidate0)
  let n1 := activated.1
  let candidate1 := activated.2
  let takeover1 : Bool :=
    if !takeover0 && decide (height < env.maxRemovalWorkaroundHeight) then
      env.isWorkaround height name
    else takeover0
  if takeover1 then { n1 with takenOverAt := height, bestClaim := candidate1 } else n1

/-- One advance of AdjustTo at height `h`: sweep, then run the takeover check
with the changed flag. -/
def Node.adjustStep (env : TakeoverEnv) (expFor : Int → Int) (n : Node) (h : Int)
    (name : List Nat) : Node :=
  let sw := n.handleExpiredAndActivated expFor h
  sw.1.updateTakeoverHeight env h name (decide (0 < sw.2))

/-- The inner loop of AdjustTo, with explicit fuel: repeatedly hop to
h = NextUpdate() while h is at most maxHeight.  Returns the final node and the
final height reached, or none when the fuel runs out. -/
def adjustLoopFuel (env : TakeoverEnv) (expFor : Int → Int) (name : List Nat)
    (maxHeight : Int) : Nat → Node → Int → Option (Node × Int)
  | 0, _, _ => none
  | fuel + 1, n, height =>
    let h := n.nextUpdate expFor
    if h ≤ maxHeight then
      adjustLoopFuel env expFor name maxHeight fuel (n.adjustStep env expFor h name) h
    else some (n, height)

/-- Node.AdjustTo from node.go, with explicit fuel for the inner loop: advance
to `height`, then, when maxHeight exceeds it, keep hopping to NextUpdate().
Returns the final node and the final height reached, or none when the fuel
runs out. -/
def Node.adjustTo (env : TakeoverEnv) (expFor : Int → Int) (fuel : Nat) (n : Node)
    (height maxHeight : Int) (name : List Nat) : Option (Node × Int) :=
  let n1 := n.adjustStep env expFor height name
  if height < maxHeight then adjustLoopFuel env expFor name maxHeight fuel n1 height
  else some (n1, height)

/-- The settledness of one entry at a height: not Deactivated, not yet
expired, and activated whenever both its active and visible heights have
arrived.  This is the invariant the sweep establishes for every surviving
entry. -/
def SettledAt (expFor : Int → Int) (h : Int) (c : Claim) : Prop :=
  c.status ≠ Status.Deactivated ∧ h < c.expireAt expFor ∧
    (c.activeAt ≤ h ∧ c.visibleAt ≤ h → c.status = Status.Activated)

/-- The spec's strict preference order on claims, for comparison against
findBestClaim: larger effective amount wins, then earlier accepted height,
then lexicographically smaller outpoint. -/
def claimBetterB (supports : List Claim) (a b : Claim) : Bool :=
  if a.effectiveAmount supports > b.effectiveAmount supports then true
  else if a.effectiveAmount supports < b.effectiveAmount supports then false
  else if a.acceptedAt < b.acceptedAt then true
  else if a.acceptedAt > b.acceptedAt then false
  else OutPointLess a.outPoint b.outPoint

/-- Equality of comparison keys under the preference order: equal effective
amount, equal accepted height and equal outpoint. -/
def sameKey (supports : List Claim) (a b : Claim) : Prop :=
  a.effectiveAmount supports = b.effectiveAmount supports ∧
    a.acceptedAt = b.acceptedAt ∧ a.outPoint = b.outPoint

/-- The findBestClaim loop restated without the cached-amount optimisation:
fold over the claims, keeping whichever of the accumulator and the next
Activated claim is better. -/
def pickBetter (supports : List Claim) (acc : Option Claim) (c : Claim) : Option Claim :=
  if c.status ≠ Status.Activated then acc
  else
    match acc with
    | none => some c
    | some b => if claimBetterB supports c b then some c else some b

/-- The characterization of a selection result over a claims list: either no
claim is Activated and nothing is selected, or an Activated member is
selected that no Activated member strictly beats. -/
def IsBestOf (supports : List Claim) (cs : List Claim) (r : Option Claim) : Prop :=
  (r = none ∧ ∀ c ∈ cs, c.status ≠ Status.Activated) ∨
  (∃ b, r = some b ∧ b ∈ cs ∧ b.status = Status.Activated ∧
    ∀ c ∈ cs, c.status = Status.Activated → claimBetterB supports c b = false)

/-- The ClaimTrie operations invoked by the replay driver of
cmd/cmd/chain.go, as an abstract action type. -/
inductive CtOp where
  | addClaim : List Nat → OutPoint → Int → List Nat → CtOp
  | updateClaim : List Nat → OutPoint → Int → List Nat → List Nat → CtOp
  | spendClaim : List Nat → OutPoint → CtOp
  | addSupport : List Nat → OutPoint → Int → List Nat → CtOp
  | spendSupport : List Nat → OutPoint → CtOp
deriving DecidableEq, Repr

/-- The dispatch switch of chainCmd in cmd/cmd/chain.go: maps the type of a
loaded change to the ClaimTrie operation invoked on it. -/
def chainDispatch (chg : Change) : CtOp :=
  match chg.type with
  | ChangeType.AddClaim => CtOp.addClaim chg.name chg.outPoint chg.amount chg.value
  | ChangeType.UpdateClaim => CtOp.updateClaim chg.name chg.outPoint chg.amount chg.claimID chg.value
  | ChangeType.SpendClaim => CtOp.spendClaim chg.name chg.outPoint
  | ChangeType.AddSupport => CtOp.addSupport chg.name chg.outPoint chg.amount chg.claimID
  | ChangeType.SpendSupport => CtOp.spendClaim chg.name chg.outPoint

end LbryNode

namespace LbryTrie

/-- A hash value: a byte sequence (32 bytes for real hashes). -/
abbrev Hash := List Nat

/-- A trie key: the raw bytes of a name. -/
abbrev Key := List Nat

/-- Modelled from the spec: the persisted blob of a trie node (the nbuf
decoder of merkletrie/node.go is not under src/): a has-value flag plus the
(branch byte, child hash) pairs in ascending branch order. -/
structure Blob where
  hasValue : Bool
  entries : List (Nat × Hash)
deriving DecidableEq, Repr

/-- An in-memory trie node: optional hash (none means dirty), has-value flag,
and the non-nil children as an association list in ascending branch order
(modelling the 256-slot link array of merkletrie). -/
inductive TNode where
  | mk : Option Hash → Bool → List (Nat × TNode) → TNode

/-- The hash field of a trie node. -/
def TNode.hash : TNode → Option Hash
  | TNode.mk h _ _ => h

/-- The has-value flag of a trie node. -/
def TNode.hasValue : TNode → Bool
  | TNode.mk _ v _ => v

/-- The children of a trie node. -/
def TNode.links : TNode → List (Nat × TNode)
  | TNode.mk _ _ l => l

/-- A fresh node, as merkletrie's newNode(): no hash, no value, no links. -/
def newTNode : TNode := TNode.mk none false []

/-- Look up the child at branch `ch` (models reading the link array slot). -/
def getLink (ch : Nat) : List (Nat × TNode) → Option TNode
  | [] => none
  | (c, t) :: rest => if c = ch then some t else getLink ch rest

/-- Write the child at branch `ch`, keeping ascending branch order (models
writing the link array slot). -/
def setLink (ch : Nat) (t : TNode) : List (Nat × TNode) → List (Nat × TNode)
  | [] => [(ch, t)]
  | (c, u) :: rest =>
    if ch < c then (ch, t) :: (c, u) :: rest
    else if ch = c then (ch, t) :: rest
    else (c, u) :: setLink ch t rest

/-- The node-blob repository, as a partial map from hash to blob; none models
pebble.ErrNotFound (any other repository error panics in the Go code and is
outside the model). -/
abbrev Repo := Hash → Option Blob

/-- The value store consulted during rehash: for a full path it yields an
error, or no hash (not found), or the leaf hash. -/
abbrev ValStore := Key → Except Unit (Option Hash)

/-- MerkleTrie.resolve: a node that has a hash and whose blob is present in
the repo gets its has-value flag and its links populated from the blob; a
missing blob (ErrNotFound) leaves the node unchanged. -/
def resolve (repo : Repo) (n : TNode) : TNode :=
  match n.hash with
  | none => n
  | some h =>
    match repo h with
    | none => n
    | some blob =>
      TNode.mk (some h) blob.hasValue
        (blob.entries.foldl (fun ls e => setLink e.1 (TNode.mk (some e.2) false []) ls) n.links)

/-- MerkleTrie.Update restated recursively: walk the key, resolving each
node, creating missing children, clearing every hash on the path; the
terminal node gets has_value set. -/
def trieUpdate (repo : Repo) : Key → TNode → TNode
  | [], n =>
    let r := resolve repo n
    TNode.mk none true r.links
  | ch :: rest, n =>
    let r := resolve repo n
    let child := (getLink ch r.links).getD newTNode
    TNode.mk none r.hasValue (setLink ch (trieUpdate repo rest child) r.links)

mutual

/-- MerkleTrie.merkle from merkletrie.go: a node with a hash returns it as-is;
a dirty node first recurses into its children (building the buffer of
branch-byte-plus-hash contributions and collecting repo writes), then appends
the value-store hash when has_value holds (a store error prunes the node
without setting its hash; a found-nothing answer appends nothing); an empty
buffer yields no hash, otherwise the hash is dsha of the buffer, recorded as
a (hash, buffer) repo write.  Returns the updated node, its hash, and the
writes in order. -/
def merkleN (store : ValStore) (dsha : List Nat → Hash) (pre : Key) :
    TNode → TNode × Option Hash × List (Hash × List Nat)
  | TNode.mk (some h) hv ls => (TNode.mk (some h) hv ls, some h, [])
  | TNode.mk none hv ls =>
    let r := merkleL store dsha pre ls
    match (if hv then store pre else Except.ok none) with
    | Except.error _ => (TNode.mk none hv r.1, none, r.2.2)
    | Except.ok oh =>
      let buf1 := r.2.1 ++ oh.getD []
      if buf1 = [] then (TNode.mk none hv r.1, none, r.2.2)
      else
        (TNode.mk (some (dsha buf1)) hv r.1, some (dsha buf1), r.2.2 ++ [(dsha buf1, buf1)])

/-- The children loop of MerkleTrie.merkle, over the links in ascending
branch order: returns the updated children, the accumulated buffer of
(branch byte, recursive hash) contributions of the children whose recursive
hash is present, and the collected repo writes. -/
def merkleL (store : ValStore) (dsha : List Nat → Hash) (pre : Key) :
    List (Nat × TNode) → List (Nat × TNode) × List Nat × List (Hash × List Nat)
  | [] => ([], [], [])
  | (ch, child) :: rest =>
    let rc := merkleN store dsha (pre ++ [ch]) child
    let rr := merkleL store dsha pre rest
    ((ch, rc.1) :: rr.1,
      (match rc.2.1 with | some hh => ch :: hh | none => []) ++ rr.2.1,
      rc.2.2 ++ rr.2.2)

end

/-- The sentinel hash of an empty trie: chainhash.Hash with array slot 0 set
to 1, i.e. the byte 0x01 followed by 31 zero bytes (rendered as 00..01 by the
byte-reversing hex display of chain hashes). -/
def emptyTrieHash : Hash := 1 :: List.replicate 31 0

/-- The root installed by MerkleTrie.New / SetRoot(emptyTrieHash): a single
unresolved node holding the sentinel hash. -/
def newTrieRoot : TNode := TNode.mk (some emptyTrieHash) false []

/-- MerkleTrie.MerkleHash from merkletrie.go: recompute from the root; when
the recursion yields no hash, return the sentinel empty-trie hash.  Returns
the root hash together with the updated root and the repo writes. -/
def merkleHash (store : ValStore) (dsha : List Nat → Hash) (root : TNode) :
    Hash × TNode × List (Hash × List Nat) :=
  let r := merkleN store dsha [] root
  match r.2.1 with
  | none => (emptyTrieHash, r.1, r.2.2)
  | some h => (h, r.1, r.2.2)

/-- The children of a dirty node after rehash, described independently: each
child is replaced by its own recursive rehash, in place. -/
def merkChildren (store : ValStore) (dsha : List Nat → Hash) (pre : Key)
    (ls : List (Nat × TNode)) : List (Nat × TNode) :=
  ls.map (fun e => (e.1, (merkleN store dsha (pre ++ [e.1]) e.2).1))

/-- The child portion of the rehash buffer, described independently: the
concatenation, in branch order of the links, of branch byte followed by the
child's recursive hash, for the children whose recursive hash is present. -/
def merkChildBuf (store : ValStore) (dsha : List Nat → Hash) (pre : Key)
    (ls : List (Nat × TNode)) : List Nat :=
  (ls.map (fun e =>
    match (merkleN store dsha (pre ++ [e.1]) e.2).2.1 with
    | some hh => e.1 :: hh
    | none => [])).flatten

/-- The repo writes contributed by the children during rehash, described
independently and in order. -/
def merkChildWrites (store : ValStore) (dsha : List Nat → Hash) (pre : Key)
    (ls : List (Nat × TNode)) : List (Hash × List Nat) :=
  (ls.map (fun e => (merkleN store dsha (pre ++ [e.1]) e.2).2.2)).flatten

/-- The full rehash buffer of a dirty node whose value store answered `oh`:
the children contributions followed, when the node has a value and the store
found a hash, by that hash. -/
def merkBuf (store : ValStore) (dsha : List Nat → Hash) (pre : Key) (hv : Bool)
    (ls : List (Nat × TNode)) (oh : Option Hash) : List Nat :=
  merkChildBuf store dsha pre ls ++ (if hv then oh.getD [] else [])

/-- Membership of a position in a trie: follow the key bytes through the
links. -/
def lookupNode : TNode → List Nat → Option TNode
  | n, [] => some n
  | n, ch :: rest =>
    match getLink ch n.links with
    | none => none
    | some c => lookupNode c rest

/-- `PathPre p key` holds when position p lies on the root-to-key path, i.e.
p is a prefix of key (the key position itself included). -/
def PathPre (p key : List Nat) : Prop := ∃ t, p ++ t = key

end LbryTrie

open LbryNode LbryTrie

/-- Helper: updateFirst is the identity when no element matches. -/
theorem updateFirst_nomatch (p : Claim → Bool) (f : Claim → Claim) :
    ∀ l : List Claim, (∀ c ∈ l, p c = false) → updateFirst p f l = l := by
  intro l
  induction l with
  | nil => intro _; rfl
  | cons c rest ih =>
    intro h
    have hc : p c = false := h c (List.mem_cons_self c rest)
    simp only [updateFirst, hc, Bool.false_eq_true, if_false]
    rw [ih fun d hd => h d (List.mem_cons_of_mem c hd)]

/-- Helper: updateFirst rewrites the element at the first matching index. -/
theorem updateFirst_first (p : Claim → Bool) (f : Claim → Claim) :
    ∀ (l : List Claim) (i : Nat) (hi : i < l.length),
      (∀ j, (hj : j < l.length) → j < i → p (l.get ⟨j, hj⟩) = false) →
      p (l.get ⟨i, hi⟩) = true →
      updateFirst p f l = l.set i (f (l.get ⟨i, hi⟩)) := by
  intro l
  induction l with
  | nil => intro i hi; simp at hi
  | cons c rest ih =>
    intro i hi hfirst hp
    cases i with
    | zero =>
      simp only [List.get] at hp
      simp [updateFirst, hp]
    | succ i =>
      have hc : p c = false := hfirst 0 (by simp) (Nat.succ_pos i)
      simp only [updateFirst, hc, Bool.false_eq_true, if_false]
      simp only [List.length_cons, Nat.succ_lt_succ_iff] at hi
      rw [ih i hi (fun j hj hji => hfirst (j + 1) (by simpa using Nat.succ_lt_succ hj)
        (Nat.succ_lt_succ hji)) hp]
      rfl

/-- Helper: find? returns the element at the first matching index. -/
theorem find?_first (p : Claim → Bool) :
    ∀ (l : List Claim) (i : Nat) (hi : i < l.length),
      (∀ j, (hj : j < l.length) → j < i → p (l.get ⟨j, hj⟩) = false) →
      p (l.get ⟨i, hi⟩) = true →
      l.find? p = some (l.get ⟨i, hi⟩) := by
  intro l
  induction l with
  | nil => intro i hi; simp at hi
  | cons c rest ih =>
    intro i hi hfirst hp
    cases i with
    | zero => simp_all [List.find?]
    | succ i =>
      have hc : p c = false := hfirst 0 (by simp) (Nat.succ_pos i)
      simp only [List.find?, hc]
      simp only [List.length_cons, Nat.succ_lt_succ_iff] at hi
      exact ih i hi (fun j hj hji => hfirst (j + 1) (by simpa using Nat.succ_lt_succ hj)
        (Nat.succ_lt_succ hji)) hp

/-- Claim C8: the replay driver of cmd/cmd/chain.go dispatches every
SpendSupport change through the same ClaimTrie operation as SpendClaim: a
change of type SpendSupport is executed as SpendClaim(name, out_point), not
as a SpendSupport operation. -/
theorem C8_spendSupport_dispatched_as_spendClaim (chg : Change)
    (h : chg.type = ChangeType.SpendSupport) :
    chainDispatch chg = CtOp.spendClaim chg.name chg.outPoint ∧
    chainDispatch chg = chainDispatch { chg with type := ChangeType.SpendClaim } := by
  obtain ⟨ty, nm, op, id, am, vl, ht, vh⟩ := chg
  cases h
  exact ⟨rfl, rfl⟩

/-- Witness for C8 at a concrete SpendSupport change. -/
theorem C8_witness :
    chainDispatch
        { type := ChangeType.SpendSupport, name := [120], outPoint := ⟨List.replicate 32 1, 0⟩,
          claimID := [2], amount := 10, value := [], height := 5, visibleHeight := 0 } =
      CtOp.spendClaim [120] ⟨List.replicate 32 1, 0⟩ ∧
    chainDispatch
        { type := ChangeType.SpendSupport, name := [120], outPoint := ⟨List.replicate 32 1, 0⟩,
          claimID := [2], amount := 10, value := [], height := 5, visibleHeight := 0 } =
      chainDispatch
        { type := ChangeType.SpendClaim, name := [120], outPoint := ⟨List.replicate 32 1, 0⟩,
          claimID := [2], amount := 10, value := [], height := 5, visibleHeight := 0 } :=
  C8_spendSupport_dispatched_as_spendClaim _ rfl

/-- Counterexample for C5: the sentinel empty-trie hash of merkletrie.go is
chainhash.Hash with array slot 0 set to 1, so its first byte is 0x01 and its
final byte is 0x00; it is not the sequence ending in 0x01 the claim
describes. -/
theorem C5_counterexample :
    emptyTrieHash.getD 0 0 = 1 ∧ emptyTrieHash.getD 31 0 = 0 ∧
    emptyTrieHash.length = 32 ∧ emptyTrieHash ≠ List.replicate 31 0 ++ [1] := by
  decide

/-- Claim C5 amended: a MerkleTrie on which no Update call was made returns
from MerkleHash the sentinel empty-trie hash, which is the 32-byte sequence
whose FIRST byte is 0x01 and all other bytes 0x00 (displayed as 00..01 in the
byte-reversed hex convention of chain hashes); and whenever the root's
recursive hash computation yields none, MerkleHash returns exactly this
sentinel. -/
theorem C5_empty_trie_sentinel (store : ValStore) (dsha : List Nat → Hash) (root : TNode)
    (h : (merkleN store dsha [] root).2.1 = none) :
    (merkleHash store dsha root).1 = emptyTrieHash ∧
    emptyTrieHash = 1 :: List.replicate 31 0 ∧
    (merkleHash store dsha newTrieRoot).1 = emptyTrieHash := by
  refine ⟨?_, rfl, rfl⟩
  simp only [merkleHash, h]

/-- Witness for C5 at a trie whose root recursion yields none: a dirty
valueless root with no children. -/
theorem C5_witness :
    (merkleHash (fun _ => Except.ok none) (fun b => b.take 32) (TNode.mk none false [])).1 =
      emptyTrieHash ∧
    emptyTrieHash = 1 :: List.replicate 31 0 ∧
    (merkleHash (fun _ => Except.ok none) (fun b => b.take 32) newTrieRoot).1 = emptyTrieHash :=
  C5_empty_trie_sentinel (fun _ => Except.ok none) (fun b => b.take 32) (TNode.mk none false []) rfl

/-- Claim C9: for SpendClaim (resp. SpendSupport), when a claim (resp.
support) with the matching outpoint exists, ApplyChange updates exactly the
first such entry and only its status, to Deactivated; when none exists the
node is left entirely unchanged (the Go function always returns a nil error,
so absence is non-fatal by construction). -/
theorem C9_spend_sets_status_only (n : Node) (chg : Change) (delay : Int) :
    (chg.type = ChangeType.SpendClaim →
      ((∀ c ∈ n.claims, c.outPoint ≠ chg.outPoint) → n.applyChange chg delay = n) ∧
      (∀ i, (hi : i < n.claims.length) →
        (∀ j, (hj : j < n.claims.length) → j < i →
          (n.claims.get ⟨j, hj⟩).outPoint ≠ chg.outPoint) →
        (n.claims.get ⟨i, hi⟩).outPoint = chg.outPoint →
        n.applyChange chg delay =
          { n with claims :=
              n.claims.set i { n.claims.get ⟨i, hi⟩ with status := Status.Deactivated } })) ∧
    (chg.type = ChangeType.SpendSupport →
      ((∀ s ∈ n.supports, s.outPoint ≠ chg.outPoint) → n.applyChange chg delay = n) ∧
      (∀ i, (hi : i < n.supports.length) →
        (∀ j, (hj : j < n.supports.length) → j < i →
          (n.supports.get ⟨j, hj⟩).outPoint ≠ chg.outPoint) →
        (n.supports.get ⟨i, hi⟩).outPoint = chg.outPoint →
        n.applyChange chg delay =
          { n with supports :=
              n.supports.set i { n.supports.get ⟨i, hi⟩ with status := Status.Deactivated } })) := by
  obtain ⟨ty, nm, op, id, am, vl, ht, vh⟩ := chg
  constructor
  · intro hty
    cases hty
    constructor
    · intro habs
      show { n with claims := updateFirst _ _ n.claims } = n
      rw [updateFirst_nomatch _ _ n.claims (fun c hc => decide_eq_false (habs c hc))]
    · intro i hi hfirst hmatch
      show { n with claims := updateFirst _ _ n.claims } = _
      rw [updateFirst_first _ _ n.claims i hi
        (fun j hj hji => decide_eq_false (hfirst j hj hji)) (decide_eq_true hmatch)]
  · intro hty
    cases hty
    constructor
    · intro habs
      show { n with supports := updateFirst _ _ n.supports } = n
      rw [updateFirst_nomatch _ _ n.supports (fun c hc => decide_eq_false (habs c hc))]
    · intro i hi hfirst hmatch
      show { n with supports := updateFirst _ _ n.supports } = _
      rw [updateFirst_first _ _ n.supports i hi
        (fun j hj hji => decide_eq_false (hfirst j hj hji)) (decide_eq_true hmatch)]

/-- Witness for C9: spending the second of two claims by its outpoint flips
exactly that claim's status to Deactivated and changes nothing else. -/
theorem C9_witness :
    Node.applyChange
        ⟨none, 0,
          [⟨⟨[1], 0⟩, [9], 5, [], 1, 1, 1, Status.Activated⟩,
            ⟨⟨[2], 0⟩, [8], 4, [], 2, 2, 2, Status.Accepted⟩], []⟩
        { type := ChangeType.SpendClaim, name := [], outPoint := ⟨[2], 0⟩, claimID := [],
          amount := 0, value := [], height := 9, visibleHeight := 0 } 3 =
      ⟨none, 0,
        [⟨⟨[1], 0⟩, [9], 5, [], 1, 1, 1, Status.Activated⟩,
          ⟨⟨[2], 0⟩, [8], 4, [], 2, 2, 2, Status.Deactivated⟩], []⟩ := by
  exact ((C9_spend_sets_status_only
      ⟨none, 0,
        [⟨⟨[1], 0⟩, [9], 5, [], 1, 1, 1, Status.Activated⟩,
          ⟨⟨[2], 0⟩, [8], 4, [], 2, 2, 2, Status.Accepted⟩], []⟩
      { type := ChangeType.SpendClaim, name := [], outPoint := ⟨[2], 0⟩, claimID := [],
        amount := 0, value := [], height := 9, visibleHeight := 0 } 3).1 rfl).2 1 (by decide)
    (fun j hj hji => by
      have hj0 : j = 0 := by omega
      subst hj0
      exact (by decide : (⟨[1], 0⟩ : OutPoint) ≠ ⟨[2], 0⟩))
    (by decide)

/-- Counterexample for C2: UpdateClaim looks up the claim by claim_id first
and only then checks for Deactivated.  In a node whose first claim with the
matching claim_id is not Deactivated while a later one is, the code changes
nothing, although a Deactivated claim with that claim_id exists. -/
theorem C2_counterexample :
    (∃ c ∈ (⟨none, 0,
        [⟨⟨[1], 0⟩, [7], 1, [], 1, 1, 1, Status.Accepted⟩,
          ⟨⟨[2], 0⟩, [7], 2, [], 1, 1, 1, Status.Deactivated⟩], []⟩ : Node).claims,
        c.claimID = [7] ∧ c.status = Status.Deactivated) ∧
    Node.applyChange
        ⟨none, 0,
          [⟨⟨[1], 0⟩, [7], 1, [], 1, 1, 1, Status.Accepted⟩,
            ⟨⟨[2], 0⟩, [7], 2, [], 1, 1, 1, Status.Deactivated⟩], []⟩
        { type := ChangeType.UpdateClaim, name := [], outPoint := ⟨[3], 0⟩, claimID := [7],
          amount := 9, value := [5], height := 5, visibleHeight := 0 } 0 =
      ⟨none, 0,
        [⟨⟨[1], 0⟩, [7], 1, [], 1, 1, 1, Status.Accepted⟩,
          ⟨⟨[2], 0⟩, [7], 2, [], 1, 1, 1, Status.Deactivated⟩], []⟩ ∧
    ¬ ∃ c ∈ (Node.applyChange
        ⟨none, 0,
          [⟨⟨[1], 0⟩, [7], 1, [], 1, 1, 1, Status.Accepted⟩,
            ⟨⟨[2], 0⟩, [7], 2, [], 1, 1, 1, Status.Deactivated⟩], []⟩
        { type := ChangeType.UpdateClaim, name := [], outPoint := ⟨[3], 0⟩, claimID := [7],
          amount := 9, value := [5], height := 5, visibleHeight := 0 } 0).claims,
        c.outPoint = (⟨[3], 0⟩ : OutPoint) ∧ c.status = Status.Accepted := by
  decide

/-- Claim C2 amended: UpdateClaim acts on the claim found by claim_id, which
is the FIRST claim whose claim_id matches the change.  When that claim's
status is Deactivated it keeps its claim_id and has outpoint, amount and
value reassigned from the change, status reset to Accepted, accepted_at set
to the change height and active_at to height plus delay; when the first
matching claim is not Deactivated, or no claim matches, the node is left
entirely unchanged (the operation is non-fatal by construction). -/
theorem C2_updateClaim_first_match (n : Node) (chg : Change) (delay : Int)
    (hty : chg.type = ChangeType.UpdateClaim) :
    (∀ i, (hi : i < n.claims.length) →
      (∀ j, (hj : j < n.claims.length) → j < i →
        (n.claims.get ⟨j, hj⟩).claimID ≠ chg.claimID) →
      (n.claims.get ⟨i, hi⟩).claimID = chg.claimID →
      ((n.claims.get ⟨i, hi⟩).status = Status.Deactivated →
        n.applyChange chg delay =
          { n with claims :=
              n.claims.set i { n.claims.get ⟨i, hi⟩ with
                outPoint := chg.outPoint, amount := chg.amount, value := chg.value,
                status := Status.Accepted, acceptedAt := chg.height,
                activeAt := chg.height + delay } }) ∧
      ((n.claims.get ⟨i, hi⟩).status ≠ Status.Deactivated → n.applyChange chg delay = n)) ∧
    ((∀ c ∈ n.claims, c.claimID ≠ chg.claimID) → n.applyChange chg delay = n) := by
  obtain ⟨ty, nm, op, id, am, vl, ht, vh⟩ := chg
  cases hty
  constructor
  · intro i hi hfirst hmatch
    have hfind : n.claims.find? (fun c => decide (c.claimID = id)) = some (n.claims.get ⟨i, hi⟩) :=
      find?_first _ n.claims i hi (fun j hj hji => decide_eq_false (hfirst j hj hji))
        (decide_eq_true hmatch)
    constructor
    · intro hst
      simp only [Node.applyChange, hfind, hst, if_true]
      rw [updateFirst_first _ _ n.claims i hi
        (fun j hj hji => decide_eq_false (hfirst j hj hji)) (decide_eq_true hmatch)]
    · intro hst
      simp only [Node.applyChange, hfind]
      rw [if_neg hst]
  · intro habs
    have hfind : n.claims.find? (fun c => decide (c.claimID = id)) = none :=
      List.find?_eq_none.2 fun c hc => by simpa using habs c hc
    simp only [Node.applyChange, hfind]

/-- Witness for C2: updating a node whose first claim with the matching
claim_id is Deactivated reassigns outpoint, amount and value, resets the
status to Accepted, the accepted height to the change height and the active
height to height plus delay, keeping the claim_id. -/
theorem C2_witness :
    Node.applyChange
        ⟨none, 0,
          [⟨⟨[1], 0⟩, [9], 1, [], 1, 1, 1, Status.Activated⟩,
            ⟨⟨[2], 0⟩, [7], 2, [], 1, 1, 1, Status.Deactivated⟩], []⟩
        { type := ChangeType.UpdateClaim, name := [], outPoint := ⟨[3], 0⟩, claimID := [7],
          amount := 9, value := [5], height := 5, visibleHeight := 0 } 2 =
      ⟨none, 0,
        [⟨⟨[1], 0⟩, [9], 1, [], 1, 1, 1, Status.Activated⟩,
          ⟨⟨[3], 0⟩, [7], 9, [5], 5, 7, 1, Status.Accepted⟩], []⟩ := by
  exact ((C2_updateClaim_first_match
      ⟨none, 0,
        [⟨⟨[1], 0⟩, [9], 1, [], 1, 1, 1, Status.Activated⟩,
          ⟨⟨[2], 0⟩, [7], 2, [], 1, 1, 1, Status.Deactivated⟩], []⟩
      { type := ChangeType.UpdateClaim, name := [], outPoint := ⟨[3], 0⟩, claimID := [7],
        amount := 9, value := [5], height := 5, visibleHeight := 0 } 2 rfl).1 1 (by decide)
    (fun j hj hji => by
      have hj0 : j = 0 := by omega
      subst hj0
      exact (by decide : ¬ ([9] : List Nat) = [7]))
    rfl).1 rfl

/-- Counterexample for C1: with MaxRemovalWorkaroundHeight = 10, a takeover
at height 20 (no current winner, so the takeover condition holds) still
force-activates in place the Accepted, visible, not-yet-active claim: its
status becomes Activated and its active height is pulled down to 20, although
the height is at the workaround bound or above. -/
theorem C1_counterexample :
    (10 : Int) ≤ 20 ∧
    Node.takeoverCond ⟨none, 0, [⟨⟨[1], 0⟩, [7], 5, [], 1, 30, 0, Status.Accepted⟩], []⟩ none =
      true ∧
    Node.updateTakeoverHeight ⟨10, fun _ _ => false⟩
        ⟨none, 0, [⟨⟨[1], 0⟩, [7], 5, [], 1, 30, 0, Status.Accepted⟩], []⟩ 20 [] false =
      ⟨some ⟨⟨[1], 0⟩, [7], 5, [], 1, 20, 0, Status.Activated⟩, 20,
        [⟨⟨[1], 0⟩, [7], 5, [], 1, 20, 0, Status.Activated⟩], []⟩ := by
  decide

/-- Claim C1 amended: the force-activate workaround of updateTakeoverHeight
is applied whenever the takeover condition holds, at EVERY height (the
height < MaxRemovalWorkaroundHeight guard applies only to the configured
takeover-workaround lookup in the no-takeover branch): when the takeover
condition holds, the claims and supports become their in-place activations;
when it does not hold, the claims and supports are unchanged. -/
theorem C1_forceActivate_at_any_height (env : TakeoverEnv) (n : Node) (height : Int)
    (name : List Nat) (refindBest : Bool) :
    (n.takeoverCond (if refindBest then n.findBestClaim else n.bestClaim) = true →
      (n.updateTakeoverHeight env height name refindBest).claims =
          n.claims.map (forceActivate height) ∧
      (n.updateTakeoverHeight env height name refindBest).supports =
          n.supports.map (forceActivate height)) ∧
    (n.takeoverCond (if refindBest then n.findBestClaim else n.bestClaim) = false →
      (n.updateTakeoverHeight env height name refindBest).claims = n.claims ∧
      (n.updateTakeoverHeight env height name refindBest).supports = n.supports) := by
  constructor
  · intro hc
    simp only [Node.updateTakeoverHeight, hc, Bool.not_true, Bool.false_and,
      Bool.false_eq_true, if_false, if_true]
    split <;> exact ⟨rfl, rfl⟩
  · intro hc
    simp only [Node.updateTakeoverHeight, hc, Bool.not_false, Bool.true_and,
      Bool.false_eq_true, if_false]
    constructor <;> (split <;> first | rfl | (split <;> rfl))

/-- Witness for C1 at a concrete takeover at height 20 with the workaround
bound at 10: the claims are mapped through the in-place activation. -/
theorem C1_witness :
    (Node.updateTakeoverHeight ⟨10, fun _ _ => false⟩
        ⟨none, 0, [⟨⟨[1], 0⟩, [7], 5, [], 1, 30, 0, Status.Accepted⟩], []⟩ 20 [] false).claims =
      [⟨⟨[1], 0⟩, [7], 5, [], 1, 30, 0, Status.Accepted⟩].map (forceActivate 20) ∧
    (Node.updateTakeoverHeight ⟨10, fun _ _ => false⟩
        ⟨none, 0, [⟨⟨[1], 0⟩, [7], 5, [], 1, 30, 0, Status.Accepted⟩], []⟩ 20 [] false).supports =
      List.map (forceActivate 20) [] := by
  exact (C1_forceActivate_at_any_height ⟨10, fun _ _ => false⟩
    ⟨none, 0, [⟨⟨[1], 0⟩, [7], 5, [], 1, 30, 0, Status.Accepted⟩], []⟩ 20 [] false).1 (by decide)

/-- Helper: taking up to the overwritten index ignores a set. -/
theorem take_set_eq {α : Type} (l : List α) :
    ∀ (i : Nat) (c : α), (l.set i c).take i = l.take i := by
  induction l with
  | nil => intro i c; rfl
  | cons a l ih =>
    intro i c
    cases i with
    | zero => rfl
    | succ i =>
      simp only [List.set, List.take]
      rw [ih i c]

/-- Helper: taking one past the overwritten index appends the new element. -/
theorem take_succ_set {α : Type} (l : List α) :
    ∀ (i : Nat) (c : α), i < l.length → (l.set i c).take (i + 1) = l.take i ++ [c] := by
  induction l with
  | nil => intro i c hi; simp at hi
  | cons a l ih =>
    intro i c hi
    cases i with
    | zero => rfl
    | succ i =>
      simp only [List.length_cons, Nat.succ_lt_succ_iff] at hi
      simp only [List.set, List.take, ih i c hi]
      rfl

/-- Helper: dropping the last element commutes with a short take. -/
theorem take_dropLast {α : Type} (l : List α) (i : Nat) (h : i + 1 ≤ l.length) :
    l.dropLast.take i = l.take i := by
  rw [List.dropLast_eq_take, List.take_take]
  congr 1
  omega

/-- Helper: every entry surviving the sweep is settled at the sweep height,
provided the already-processed items before index i are. -/
theorem sweepLoop_settled (expFor : Int → Int) (h : Int) :
    ∀ (items : List Claim) (i : Nat) (changes : Nat),
      (∀ c ∈ items.take i, SettledAt expFor h c) →
      ∀ c ∈ (sweepLoop expFor h items i changes).1, SettledAt expFor h c := by
  have H : ∀ (m : Nat) (items : List Claim) (i changes : Nat), items.length - i = m →
      (∀ c ∈ items.take i, SettledAt expFor h c) →
      ∀ c ∈ (sweepLoop expFor h items i changes).1, SettledAt expFor h c := by
    intro m
    induction m using Nat.strong_induction_on with
    | _ m ihm =>
      intro items i changes hm hpre
      rw [sweepLoop]
      by_cases hi : i < items.length
      · rw [dif_pos hi]
        dsimp only
        have hrem_pre : ∀ (c1 last : Claim),
            ∀ c ∈ (((items.set i c1).set i last).dropLast).take i, SettledAt expFor h c := by
          intro c1 last c hc
          rw [take_dropLast _ i (by simp only [List.length_set]; omega),
            take_set_eq, take_set_eq] at hc
          exact hpre c hc
        have hkeep_pre : ∀ c1 : Claim, SettledAt expFor h c1 →
            ∀ c ∈ (items.set i c1).take (i + 1), SettledAt expFor h c := by
          intro c1 hc1 c hc
          rw [take_succ_set _ i _ hi, List.mem_append] at hc
          rcases hc with hc | hc
          · exact hpre c hc
          · rw [List.mem_singleton] at hc
            subst hc
            exact hc1
        rcases Decidable.em ((items.get ⟨i, hi⟩).status = Status.Accepted ∧
            (items.get ⟨i, hi⟩).activeAt ≤ h ∧ (items.get ⟨i, hi⟩).visibleAt ≤ h) with hp | hp
        · rw [decide_eq_true hp]
          simp only [if_true]
          split
          · exact ihm (m - 1) (by omega) _ i _
              (by simp only [List.length_dropLast, List.length_set]; omega) (hrem_pre _ _)
          · rename_i hkeep
            push_neg at hkeep
            refine ihm (m - 1) (by omega) _ (i + 1) _
              (by simp only [List.length_set]; omega) (hkeep_pre _ ?_)
            exact ⟨by simp, hkeep.1, fun _ => rfl⟩
        · rw [decide_eq_false hp]
          simp only [Bool.false_eq_true, if_false]
          split
          · exact ihm (m - 1) (by omega) _ i _
              (by simp only [List.length_dropLast, List.length_set]; omega) (hrem_pre _ _)
          · rename_i hkeep
            push_neg at hkeep
            refine ihm (m - 1) (by omega) _ (i + 1) _
              (by simp only [List.length_set]; omega) (hkeep_pre _ ?_)
            refine ⟨hkeep.2, hkeep.1, fun hav => ?_⟩
            cases hst : (items.get ⟨i, hi⟩).status with
            | Accepted => exact absurd ⟨hst, hav.1, hav.2⟩ hp
            | Activated => rfl
            | Deactivated => exact absurd hst hkeep.2
      · rw [dif_neg hi]
        intro c hc
        exact hpre c (by rw [List.take_of_length_le (Nat.le_of_not_lt hi)]; exact hc)
  intro items i changes
  exact H (items.length - i) items i changes rfl

/-- Helper: the sweep leaves only settled entries in both lists. -/
theorem handleExpired_settled (expFor : Int → Int) (n : Node) (h : Int) :
    (∀ c ∈ (n.handleExpiredAndActivated expFor h).1.claims, SettledAt expFor h c) ∧
    (∀ c ∈ (n.handleExpiredAndActivated expFor h).1.supports, SettledAt expFor h c) :=
  ⟨fun c hc => sweepLoop_settled expFor h n.claims 0 0 (by simp) c hc,
    fun c hc => sweepLoop_settled expFor h n.supports 0 0 (by simp) c hc⟩

/-- Helper: the in-place activation preserves settledness at its height. -/
theorem forceActivate_settled (expFor : Int → Int) (h : Int) (c : Claim)
    (hc : SettledAt expFor h c) : SettledAt expFor h (forceActivate h c) := by
  unfold forceActivate
  split
  · exact ⟨by simp, hc.2.1, fun _ => rfl⟩
  · exact hc

/-- Helper: updateTakeoverHeight either maps both lists through the in-place
activation or leaves both unchanged. -/
theorem updateTakeoverHeight_lists (env : TakeoverEnv) (n : Node) (height : Int)
    (name : List Nat) (rb : Bool) :
    ((n.updateTakeoverHeight env height name rb).claims =
        n.claims.map (forceActivate height) ∧
      (n.updateTakeoverHeight env height name rb).supports =
        n.supports.map (forceActivate height)) ∨
    ((n.updateTakeoverHeight env height name rb).claims = n.claims ∧
      (n.updateTakeoverHeight env height name rb).supports = n.supports) := by
  cases hc : n.takeoverCond (if rb then n.findBestClaim else n.bestClaim)
  · right
    simp only [Node.updateTakeoverHeight, hc, Bool.not_false, Bool.true_and,
      Bool.false_eq_true, if_false]
    constructor <;> (split <;> first | rfl | (split <;> rfl))
  · left
    simp only [Node.updateTakeoverHeight, hc, Bool.not_true, Bool.false_and,
      Bool.false_eq_true, if_false, if_true]
    split <;> exact ⟨rfl, rfl⟩

/-- Helper: after one advance of AdjustTo at height h, every entry of the node
is settled at h. -/
theorem adjustStep_settled (env : TakeoverEnv) (expFor : Int → Int) (n : Node) (h : Int)
    (name : List Nat) :
    (∀ c ∈ (n.adjustStep env expFor h name).claims, SettledAt expFor h c) ∧
    (∀ c ∈ (n.adjustStep env expFor h name).supports, SettledAt expFor h c) := by
  have hsw := handleExpired_settled expFor n h
  constructor
  · intro c hc
    have hc' : c ∈ ((n.handleExpiredAndActivated expFor h).1.updateTakeoverHeight env h name
        (decide (0 < (n.handleExpiredAndActivated expFor h).2))).claims := hc
    rcases updateTakeoverHeight_lists env (n.handleExpiredAndActivated expFor h).1 h name
        (decide (0 < (n.handleExpiredAndActivated expFor h).2)) with ⟨h1, _⟩ | ⟨h1, _⟩
    · rw [h1] at hc'
      rcases List.mem_map.1 hc' with ⟨d, hd, rfl⟩
      exact forceActivate_settled expFor h d (hsw.1 d hd)
    · rw [h1] at hc'
      exact hsw.1 c hc'
  · intro c hc
    have hc' : c ∈ ((n.handleExpiredAndActivated expFor h).1.updateTakeoverHeight env h name
        (decide (0 < (n.handleExpiredAndActivated expFor h).2))).supports := hc
    rcases updateTakeoverHeight_lists env (n.handleExpiredAndActivated expFor h).1 h name
        (decide (0 < (n.handleExpiredAndActivated expFor h).2)) with ⟨_, h2⟩ | ⟨_, h2⟩
    · rw [h2] at hc'
      rcases List.mem_map.1 hc' with ⟨d, hd, rfl⟩
      exact forceActivate_settled expFor h d (hsw.2 d hd)
    · rw [h2] at hc'
      exact hsw.2 c hc'

/-- Helper: folding one settled entry into the NextUpdate minimum keeps it
strictly above the settled height. -/
theorem nextUpdateStep_gt (expFor : Int → Int) (h next : Int) (c : Claim)
    (hn : h < next) (hc : SettledAt expFor h c) : h < nextUpdateStep expFor next c := by
  rcases hc with ⟨hst, hexp, hact⟩
  by_cases hs : c.status = Status.Accepted
  · have hd : ¬(c.activeAt ≤ h ∧ c.visibleAt ≤ h) := fun hav =>
      absurd (hs.symm.trans (hact hav)) (by decide)
    simp only [nextUpdateStep, hs, if_true]
    split_ifs <;> omega
  · simp only [nextUpdateStep, if_neg hs]
    split_ifs <;> omega

/-- Helper: the NextUpdate fold stays strictly above the settled height. -/
theorem foldl_nextUpdate_gt (expFor : Int → Int) (h : Int) :
    ∀ (l : List Claim) (next : Int), h < next → (∀ c ∈ l, SettledAt expFor h c) →
      h < l.foldl (nextUpdateStep expFor) next := by
  intro l
  induction l with
  | nil => intro next hn _; exact hn
  | cons c l ih =>
    intro next hn hl
    exact ih _ (nextUpdateStep_gt expFor h next c hn (hl c (by simp)))
      (fun d hd => hl d (by simp [hd]))

/-- Helper: for a node whose entries are all settled at h, with h below the
int32 sentinel, NextUpdate is strictly above h. -/
theorem nextUpdate_gt (expFor : Int → Int) (n : Node) (h : Int) (hmax : h < 2147483647)
    (hcl : ∀ c ∈ n.claims, SettledAt expFor h c)
    (hsu : ∀ c ∈ n.supports, SettledAt expFor h c) : h < n.nextUpdate expFor := by
  unfold Node.nextUpdate
  exact foldl_nextUpdate_gt expFor h n.supports _
    (foldl_nextUpdate_gt expFor h n.claims _ hmax hcl) hsu

/-- Helper: the AdjustTo inner loop turns settledness at the entry height into
settledness at the final height it reports. -/
theorem adjustLoop_settled (env : TakeoverEnv) (expFor : Int → Int) (name : List Nat)
    (maxHeight : Int) :
    ∀ (fuel : Nat) (n : Node) (height : Int) (res : Node × Int),
      adjustLoopFuel env expFor name maxHeight fuel n height = some res →
      (∀ c ∈ n.claims, SettledAt expFor height c) →
      (∀ c ∈ n.supports, SettledAt expFor height c) →
      (∀ c ∈ res.1.claims, SettledAt expFor res.2 c) ∧
      (∀ c ∈ res.1.supports, SettledAt expFor res.2 c) := by
  intro fuel
  induction fuel with
  | zero => intro n height res hres; cases hres
  | succ fuel ih =>
    intro n height res hres hcl hsu
    rw [adjustLoopFuel] at hres
    split at hres
    · exact ih _ _ res hres
        (adjustStep_settled env expFor _ _ name).1 (adjustStep_settled env expFor _ _ name).2
    · cases hres
      exact ⟨hcl, hsu⟩

/-- Claim C4: whenever AdjustTo returns (for any fuel bound on its inner
loop), the resulting node at the final height reached has no claim or support
that is Deactivated or expired, and every remaining entry whose active and
visible heights are at or below that height is Activated. -/
theorem C4_adjustTo_invariant (env : TakeoverEnv) (expFor : Int → Int) (fuel : Nat)
    (n : Node) (height maxHeight : Int) (name : List Nat) (res : Node × Int)
    (hres : n.adjustTo env expFor fuel height maxHeight name = some res) :
    ∀ c, c ∈ res.1.claims ∨ c ∈ res.1.supports →
      c.status ≠ Status.Deactivated ∧ res.2 < c.expireAt expFor ∧
      (c.activeAt ≤ res.2 ∧ c.visibleAt ≤ res.2 → c.status = Status.Activated) := by
  have hmain : (∀ c ∈ res.1.claims, SettledAt expFor res.2 c) ∧
      (∀ c ∈ res.1.supports, SettledAt expFor res.2 c) := by
    rw [Node.adjustTo] at hres
    split at hres
    · exact adjustLoop_settled env expFor name maxHeight fuel _ height res hres
        (adjustStep_settled env expFor n height name).1
        (adjustStep_settled env expFor n height name).2
    · cases hres
      exact ⟨(adjustStep_settled env expFor n height name).1,
        (adjustStep_settled env expFor n height name).2⟩
  intro c hc
  rcases hc with hc | hc
  · exact hmain.1 c hc
  · exact hmain.2 c hc

/-- Witness for C4 on a concrete two-claim node advanced from height 2 with
maxHeight 6: the first claim of the result is Activated, unexpired and
activated at the final height 2. -/
theorem C4_witness :
    (⟨⟨[1], 0⟩, [1], 5, [], 0, 2, 0, Status.Activated⟩ : Claim).status ≠ Status.Deactivated ∧
    (2 : Int) < Claim.expireAt (fun _ => 10) ⟨⟨[1], 0⟩, [1], 5, [], 0, 2, 0, Status.Activated⟩ ∧
    ((⟨⟨[1], 0⟩, [1], 5, [], 0, 2, 0, Status.Activated⟩ : Claim).activeAt ≤ 2 ∧
      (⟨⟨[1], 0⟩, [1], 5, [], 0, 2, 0, Status.Activated⟩ : Claim).visibleAt ≤ 2 →
      (⟨⟨[1], 0⟩, [1], 5, [], 0, 2, 0, Status.Activated⟩ : Claim).status = Status.Activated) := by
  exact C4_adjustTo_invariant ⟨1000, fun _ _ => false⟩ (fun _ => 10) 20
    ⟨none, 0, [⟨⟨[1], 0⟩, [1], 5, [], 0, 3, 0, Status.Accepted⟩,
      ⟨⟨[2], 0⟩, [2], 9, [], 0, 8, 0, Status.Accepted⟩], []⟩ 2 6 []
    (⟨some ⟨⟨[2], 0⟩, [2], 9, [], 0, 2, 0, Status.Activated⟩, 2,
      [⟨⟨[1], 0⟩, [1], 5, [], 0, 2, 0, Status.Activated⟩,
        ⟨⟨[2], 0⟩, [2], 9, [], 0, 2, 0, Status.Activated⟩], []⟩, 2)
    (by simp +decide [Node.adjustTo, adjustLoopFuel, Node.adjustStep,
      Node.handleExpiredAndActivated, sweepLoop, Node.updateTakeoverHeight, Node.takeoverCond,
      Node.activateAllClaims, Node.findBestClaim, fbStep, Node.nextUpdate, nextUpdateStep,
      forceActivate, forceActivateCond, Claim.effectiveAmount, Claim.expireAt, OutPointLess,
      bytesLess])
    ⟨⟨[1], 0⟩, [1], 5, [], 0, 2, 0, Status.Activated⟩ (Or.inl (by decide))

/-- Counterexample for C10: with maxHeight equal to the int32 sentinel
2147483647, the inner loop of AdjustTo makes no progress on a node with no
entries: NextUpdate stays at the sentinel, which still satisfies
h <= maxHeight, every iteration removes or activates nothing, and the loop
never exits (here: it exhausts any finite fuel, shown for 12). -/
theorem C10_counterexample :
    Node.new.nextUpdate (fun _ => 100) = 2147483647 ∧
    (Node.new.adjustStep ⟨0, fun _ _ => false⟩ (fun _ => 100) 2147483647 []).nextUpdate
        (fun _ => 100) = 2147483647 ∧
    Node.adjustTo ⟨0, fun _ _ => false⟩ (fun _ => 100) 12 Node.new 0 2147483647 [] = none := by
  refine ⟨by decide, ?_, ?_⟩
  · simp +decide [Node.adjustStep, Node.handleExpiredAndActivated, sweepLoop,
      Node.updateTakeoverHeight, Node.takeoverCond, Node.activateAllClaims, Node.findBestClaim,
      Node.nextUpdate, nextUpdateStep, Node.new]
  · simp +decide [Node.adjustTo, adjustLoopFuel, Node.adjustStep, Node.handleExpiredAndActivated,
      sweepLoop, Node.updateTakeoverHeight, Node.takeoverCond, Node.activateAllClaims,
      Node.findBestClaim, Node.nextUpdate, nextUpdateStep, Node.new]

/-- Helper: with maxHeight strictly below the int32 sentinel, the AdjustTo
inner loop finishes within any fuel exceeding maxHeight minus the entry
height, because each iteration processes a strictly larger height. -/
theorem adjustLoop_some (env : TakeoverEnv) (expFor : Int → Int) (name : List Nat)
    (maxHeight : Int) (hmax : maxHeight < 2147483647) :
    ∀ (k : Nat) (n : Node) (height : Int), (maxHeight - height).toNat < k →
      height ≤ maxHeight →
      (∀ c ∈ n.claims, SettledAt expFor height c) →
      (∀ c ∈ n.supports, SettledAt expFor height c) →
      (adjustLoopFuel env expFor name maxHeight k n height).isSome = true := by
  intro k
  induction k with
  | zero => intro n height hk; omega
  | succ k ih =>
    intro n height hk hle hcl hsu
    rw [adjustLoopFuel]
    split
    · rename_i hcond
      have hprog : height < n.nextUpdate expFor :=
        nextUpdate_gt expFor n height (by omega) hcl hsu
      exact ih _ _ (by omega) hcond
        (adjustStep_settled env expFor n (n.nextUpdate expFor) name).1
        (adjustStep_settled env expFor n (n.nextUpdate expFor) name).2
    · rfl

/-- Claim C10 amended: AdjustTo terminates whenever maxHeight is strictly
below the int32 sentinel 2147483647 (fuel maxHeight - height + 1 suffices for
the inner loop), because after processing any height h the node is settled at
h and NextUpdate is strictly above h.  The claim's progress argument fails
only when maxHeight equals the sentinel, where an empty NextUpdate keeps
returning 2147483647 without removing or activating anything. -/
theorem C10_adjustTo_terminates (env : TakeoverEnv) (expFor : Int → Int) (name : List Nat)
    (n : Node) (height maxHeight : Int) (hmax : maxHeight < 2147483647) :
    (n.adjustTo env expFor ((maxHeight - height).toNat + 1) height maxHeight name).isSome =
      true ∧
    ∀ (m : Node) (h : Int), h < 2147483647 →
      h < ((m.adjustStep env expFor h name).nextUpdate expFor) := by
  constructor
  · rw [Node.adjustTo]
    split
    · rename_i hlt
      exact adjustLoop_some env expFor name maxHeight hmax _ _ height (by omega) (by omega)
        (adjustStep_settled env expFor n height name).1
        (adjustStep_settled env expFor n height name).2
    · rfl
  · intro m h hh
    exact nextUpdate_gt expFor _ h hh
      (adjustStep_settled env expFor m h name).1
      (adjustStep_settled env expFor m h name).2

/-- Witness for C10 at a concrete node and heights: AdjustTo from height 0 to
maxHeight 5 returns, and the advance at height 3 leaves NextUpdate above 3. -/
theorem C10_witness :
    (Node.adjustTo ⟨0, fun _ _ => false⟩ (fun _ => 100) 6
        ⟨none, 0, [⟨⟨[1], 0⟩, [1], 5, [], 0, 3, 0, Status.Accepted⟩], []⟩ 0 5 []).isSome =
      true ∧
    ∀ (m : Node) (h : Int), h < 2147483647 →
      h < ((m.adjustStep ⟨0, fun _ _ => false⟩ (fun _ => 100) h []).nextUpdate (fun _ => 100)) :=
  C10_adjustTo_terminates ⟨0, fun _ _ => false⟩ (fun _ => 100) []
    ⟨none, 0, [⟨⟨[1], 0⟩, [1], 5, [], 0, 3, 0, Status.Accepted⟩], []⟩ 0 5 (by decide)

/-- Helper: bytesLess is irreflexive. -/
theorem bytesLess_irrefl : ∀ x, bytesLess x x = false := by
  intro x
  induction x with
  | nil => rfl
  | cons a as ih => simp [bytesLess, ih]

/-- Helper: bytesLess is asymmetric. -/
theorem bytesLess_asymm : ∀ x y, bytesLess x y = true → bytesLess y x = false := by
  intro x
  induction x with
  | nil =>
    intro y hxy
    cases y with
    | nil => rfl
    | cons b bs => rfl
  | cons a as ih =>
    intro y hxy
    cases y with
    | nil => simp [bytesLess] at hxy
    | cons b bs =>
      simp only [bytesLess] at hxy ⊢
      by_cases h1 : a < b
      · simp [h1, (show ¬ b < a by omega)]
      · by_cases h2 : b < a
        · simp [h1, h2] at hxy
        · simp only [h1, h2, if_false] at hxy
          simp [h1, h2, ih bs hxy]

/-- Helper: bytesLess is total up to equality. -/
theorem bytesLess_total : ∀ x y, bytesLess x y = false → bytesLess y x = false → x = y := by
  intro x
  induction x with
  | nil =>
    intro y hxy _
    cases y with
    | nil => rfl
    | cons b bs => simp [bytesLess] at hxy
  | cons a as ih =>
    intro y hxy hyx
    cases y with
    | nil => simp [bytesLess] at hyx
    | cons b bs =>
      simp only [bytesLess] at hxy hyx
      by_cases h1 : a < b
      · simp [h1] at hxy
      · by_cases h2 : b < a
        · simp [h2] at hyx
        · have hab : a = b := by omega
          subst hab
          simp only [lt_irrefl, if_false] at hxy hyx
          rw [ih bs hxy hyx]

/-- Helper: bytesLess is transitive. -/
theorem bytesLess_trans : ∀ x y z, bytesLess x y = true → bytesLess y z = true →
    bytesLess x z = true := by
  intro x
  induction x with
  | nil =>
    intro y z hxy hyz
    cases y with
    | nil => exact hyz
    | cons b bs =>
      cases z with
      | nil => simp [bytesLess] at hyz
      | cons c cs => rfl
  | cons a as ih =>
    intro y z hxy hyz
    cases y with
    | nil => simp [bytesLess] at hxy
    | cons b bs =>
      cases z with
      | nil => simp [bytesLess] at hyz
      | cons c cs =>
        simp only [bytesLess] at hxy hyz ⊢
        by_cases h1 : a < b
        · by_cases h2 : b < c
          · simp [(show a < c by omega)]
          · by_cases h3 : c < b
            · simp [h2, h3] at hyz
            · have : b = c := by omega
              subst this
              simp [h1]
        · by_cases h2 : b < a
          · simp [h1, h2] at hxy
          · have hab : a = b := by omega
            subst hab
            simp only [lt_irrefl, if_false] at hxy
            by_cases h3 : a < c
            · simp [h3]
            · by_cases h4 : c < a
              · simp [h3, h4] at hyz
              · simp only [h3, h4, if_false] at hyz ⊢
                exact ih bs cs hxy hyz

/-- Helper: OutPointLess is irreflexive. -/
theorem OutPointLess_irrefl (a : OutPoint) : OutPointLess a a = false := by
  simp [OutPointLess, bytesLess_irrefl]

/-- Helper: OutPointLess is asymmetric. -/
theorem OutPointLess_asymm (a b : OutPoint) (h : OutPointLess a b = true) :
    OutPointLess b a = false := by
  unfold OutPointLess at h ⊢
  by_cases h1 : bytesLess a.txHash b.txHash = true
  · have h2 := bytesLess_asymm _ _ h1
    simp [h1, h2]
  · by_cases h2 : bytesLess b.txHash a.txHash = true
    · simp [h1, h2] at h
    · simp only [h1, h2, Bool.false_eq_true, if_false] at h ⊢
      simp at h ⊢
      omega

/-- Helper: OutPointLess is total up to equality. -/
theorem OutPointLess_total (a b : OutPoint) (h1 : OutPointLess a b = false)
    (h2 : OutPointLess b a = false) : a = b := by
  unfold OutPointLess at h1 h2
  by_cases k1 : bytesLess a.txHash b.txHash = true
  · simp [k1] at h1
  · by_cases k2 : bytesLess b.txHash a.txHash = true
    · simp [k1, k2] at h2
    · simp only [k1, k2, Bool.false_eq_true, if_false] at h1 h2
      simp at h1 h2
      obtain ⟨ax, ai⟩ := a
      obtain ⟨bx, bi⟩ := b
      have hx : ax = bx := bytesLess_total _ _ (by simpa using k1) (by simpa using k2)
      have hi : ai = bi := by simp at h1 h2; omega
      rw [hx, hi]

/-- Helper: OutPointLess is transitive. -/
theorem OutPointLess_trans (a b c : OutPoint) (h1 : OutPointLess a b = true)
    (h2 : OutPointLess b c = true) : OutPointLess a c = true := by
  unfold OutPointLess at h1 h2 ⊢
  by_cases k1 : bytesLess a.txHash b.txHash = true
  · by_cases k2 : bytesLess b.txHash c.txHash = true
    · simp [bytesLess_trans _ _ _ k1 k2]
    · by_cases k3 : bytesLess c.txHash b.txHash = true
      · simp [k2, k3] at h2
      · have hbc : b.txHash = c.txHash := bytesLess_total _ _
          (by simpa using k2) (by simpa using k3)
        rw [← hbc]
        simp [k1]
  · by_cases k2 : bytesLess b.txHash a.txHash = true
    · simp [k1, k2] at h1
    · have hab : a.txHash = b.txHash := bytesLess_total _ _
        (by simpa using k1) (by simpa using k2)
      simp only [k1, k2, Bool.false_eq_true, if_false] at h1
      rw [hab]
      by_cases k3 : bytesLess b.txHash c.txHash = true
      · simp [k3]
      · by_cases k4 : bytesLess c.txHash b.txHash = true
        · simp [k3, k4] at h2
        · simp only [k3, k4, Bool.false_eq_true, if_false] at h2 ⊢
          simp at h1 h2 ⊢
          omega

/-- Helper: the preference order is irreflexive. -/
theorem claimBetter_irrefl (ss : List Claim) (a : Claim) : claimBetterB ss a a = false := by
  unfold claimBetterB
  split_ifs <;> first | omega | exact OutPointLess_irrefl a.outPoint

/-- Helper: the preference order is transitive. -/
theorem claimBetter_trans (ss : List Claim) (a b c : Claim)
    (h1 : claimBetterB ss a b = true) (h2 : claimBetterB ss b c = true) :
    claimBetterB ss a c = true := by
  unfold claimBetterB at h1 h2 ⊢
  split_ifs at h1 h2 ⊢ <;>
    first
      | rfl
      | omega
      | exact OutPointLess_trans _ _ _ h1 h2

/-- Helper: two claims neither of which beats the other share the comparison
key. -/
theorem claimBetter_total (ss : List Claim) (a b : Claim)
    (h1 : claimBetterB ss a b = false) (h2 : claimBetterB ss b a = false) :
    sameKey ss a b := by
  unfold claimBetterB at h1 h2
  split_ifs at h1 h2
  all_goals first
    | omega
    | exact ⟨by omega, by omega, OutPointLess_total _ _ h1 h2⟩

/-- Helper: one step of the findBestClaim loop agrees with the uncached fold,
and the cached amount stays either zero or the best claim's effective
amount. -/
theorem fbStep_agrees (ss : List Claim) (acc : Option Claim × Int) (c : Claim)
    (h1 : acc.1 = none → acc.2 = 0)
    (h2 : ∀ b, acc.1 = some b → acc.2 = 0 ∨ acc.2 = b.effectiveAmount ss) :
    (fbStep ss acc c).1 = pickBetter ss acc.1 c ∧
    ((fbStep ss acc c).1 = none → (fbStep ss acc c).2 = 0) ∧
    (∀ b, (fbStep ss acc c).1 = some b →
      (fbStep ss acc c).2 = 0 ∨ (fbStep ss acc c).2 = b.effectiveAmount ss) := by
  obtain ⟨ob, a2⟩ := acc
  by_cases hst : c.status = Status.Activated
  · cases ob with
    | none =>
      have ha2 : a2 = 0 := h1 rfl
      subst ha2
      simp only [fbStep, pickBetter, hst]
      refine ⟨by simp, by simp, fun b hb => Or.inl rfl⟩
    | some b =>
      have hba : (if a2 ≤ 0 then b.effectiveAmount ss else a2) = b.effectiveAmount ss := by
        rcases h2 b rfl with h | h
        · subst h; simp
        · subst h; split_ifs <;> rfl
      simp only [fbStep, pickBetter, claimBetterB, hst, ne_eq, not_true_eq_false,
        Bool.false_eq_true, if_false, hba]
      split_ifs <;> simp_all
  · have hcond : (c.status ≠ Status.Activated) := hst
    simp only [fbStep, pickBetter, if_pos hcond]
    exact ⟨trivial, h1, h2⟩

/-- Helper: findBestClaim equals the uncached best-claim fold. -/
theorem findBest_eq_pick (n : Node) :
    n.findBestClaim = n.claims.foldl (pickBetter n.supports) none := by
  have H : ∀ (cs : List Claim) (acc : Option Claim × Int),
      (acc.1 = none → acc.2 = 0) →
      (∀ b, acc.1 = some b → acc.2 = 0 ∨ acc.2 = b.effectiveAmount n.supports) →
      (cs.foldl (fbStep n.supports) acc).1 = cs.foldl (pickBetter n.supports) acc.1 := by
    intro cs
    induction cs with
    | nil => intro acc _ _; rfl
    | cons c cs ih =>
      intro acc h1 h2
      simp only [List.foldl]
      obtain ⟨he, h1', h2'⟩ := fbStep_agrees n.supports acc c h1 h2
      rw [← he]
      exact ih (fbStep n.supports acc c) h1' h2'
  exact H n.claims (none, 0) (fun _ => rfl) (fun b hb => nomatch hb)

/-- Helper: the uncached fold's result satisfies the best-claim
characterization. -/
theorem pick_isBest (ss : List Claim) :
    ∀ cs : List Claim, IsBestOf ss cs (cs.foldl (pickBetter ss) none) := by
  intro cs
  induction cs using List.reverseRecOn with
  | nil => exact Or.inl ⟨rfl, by simp⟩
  | append_singleton cs c ih =>
    rw [List.foldl_append]
    simp only [List.foldl]
    rcases ih with ⟨hr, hall⟩ | ⟨b, hr, hmem, hst, hbeats⟩
    · rw [hr]
      by_cases hc : c.status = Status.Activated
      · refine Or.inr ⟨c, by simp [pickBetter, hc], by simp, hc, ?_⟩
        intro e he hest
        rcases List.mem_append.1 he with he | he
        · exact absurd hest (hall e he)
        · rw [List.mem_singleton] at he
          subst he
          exact claimBetter_irrefl ss e
      · refine Or.inl ⟨by simp [pickBetter, hc], ?_⟩
        intro e he
        rcases List.mem_append.1 he with he | he
        · exact hall e he
        · rw [List.mem_singleton] at he
          subst he
          exact hc
    · rw [hr]
      by_cases hc : c.status = Status.Activated
      · rcases Bool.eq_false_or_eq_true (claimBetterB ss c b) with hcb | hcb
        · refine Or.inr ⟨c, by simp [pickBetter, hc, hcb], by simp, hc, ?_⟩
          intro e he hest
          rcases List.mem_append.1 he with he | he
          · rcases Bool.eq_false_or_eq_true (claimBetterB ss e c) with ht | hf
            · have hcontra := hbeats e he hest
              rw [claimBetter_trans ss e c b ht hcb] at hcontra
              cases hcontra
            · exact hf
          · rw [List.mem_singleton] at he
            subst he
            exact claimBetter_irrefl ss e
        · refine Or.inr ⟨b, by simp [pickBetter, hc, hcb], List.mem_append_left _ hmem, hst, ?_⟩
          intro e he hest
          rcases List.mem_append.1 he with he | he
          · exact hbeats e he hest
          · rw [List.mem_singleton] at he
            subst he
            exact hcb
      · refine Or.inr ⟨b, by simp [pickBetter, hc], List.mem_append_left _ hmem, hst, ?_⟩
        intro e he hest
        rcases List.mem_append.1 he with he | he
        · exact hbeats e he hest
        · rw [List.mem_singleton] at he
          subst he
          exact absurd hest hc

/-- Helper: when Activated claims have pairwise distinct comparison keys, the
best-claim characterization determines the result uniquely. -/
theorem isBest_unique (ss cs : List Claim) (r1 r2 : Option Claim)
    (hinj : ∀ a ∈ cs, ∀ b ∈ cs, a.status = Status.Activated → b.status = Status.Activated →
      sameKey ss a b → a = b)
    (h1 : IsBestOf ss cs r1) (h2 : IsBestOf ss cs r2) : r1 = r2 := by
  rcases h1 with ⟨e1, hall1⟩ | ⟨b1, e1, hm1, hs1, hb1⟩ <;>
    rcases h2 with ⟨e2, hall2⟩ | ⟨b2, e2, hm2, hs2, hb2⟩
  · rw [e1, e2]
  · exact absurd hs2 (hall1 b2 hm2)
  · exact absurd hs1 (hall2 b1 hm1)
  · rw [e1, e2]
    rw [hinj b1 hm1 b2 hm2 hs1 hs2
      (claimBetter_total ss b1 b2 (hb2 b1 hm1 hs1) (hb1 b2 hm2 hs2))]

/-- Helper: the best-claim characterization transfers across permutations. -/
theorem isBest_perm (ss : List Claim) {cs cs2 : List Claim} (hp : cs.Perm cs2)
    (r : Option Claim) (h : IsBestOf ss cs r) : IsBestOf ss cs2 r := by
  rcases h with ⟨e, hall⟩ | ⟨b, e, hm, hs, hb⟩
  · exact Or.inl ⟨e, fun c hc => hall c (hp.symm.subset hc)⟩
  · exact Or.inr ⟨b, e, hp.subset hm, hs, fun c hc hcs => hb c (hp.symm.subset hc) hcs⟩

/-- Claim C3: findBestClaim selects, among exactly the Activated claims, the
maximum under the strict order larger-effective-amount, then
earlier-accepted-at, then lexicographically-smaller-outpoint; in particular
two Activated claims tying on effective amount and accepted height are
decided by the smaller outpoint in either insertion order, and permuting the
claims list does not change the selection.  The hypothesis asks that
Activated claims have pairwise distinct comparison keys, which is what makes
the order on them total and the maximum well defined. -/
theorem C3_findBestClaim_max (n : Node)
    (hinj : ∀ a ∈ n.claims, ∀ b ∈ n.claims, a.status = Status.Activated →
      b.status = Status.Activated → sameKey n.supports a b → a = b) :
    (∀ b, n.findBestClaim = some b → b ∈ n.claims ∧ b.status = Status.Activated ∧
      ∀ c ∈ n.claims, c.status = Status.Activated → c ≠ b →
        claimBetterB n.supports b c = true) ∧
    (n.findBestClaim = none ↔ ∀ c ∈ n.claims, c.status ≠ Status.Activated) ∧
    (∀ cs2, n.claims.Perm cs2 →
      Node.findBestClaim ⟨n.bestClaim, n.takenOverAt, cs2, n.supports⟩ = n.findBestClaim) ∧
    (∀ A B, A.status = Status.Activated → B.status = Status.Activated →
      A.effectiveAmount n.supports = B.effectiveAmount n.supports →
      A.acceptedAt = B.acceptedAt → OutPointLess A.outPoint B.outPoint = true →
      Node.findBestClaim ⟨n.bestClaim, n.takenOverAt, [A, B], n.supports⟩ = some A ∧
      Node.findBestClaim ⟨n.bestClaim, n.takenOverAt, [B, A], n.supports⟩ = some A) := by
  have hbest : IsBestOf n.supports n.claims n.findBestClaim := by
    rw [findBest_eq_pick]
    exact pick_isBest n.supports n.claims
  refine ⟨?_, ?_, ?_, ?_⟩
  · intro b hb
    rcases hbest with ⟨e, _⟩ | ⟨b', e, hm, hs, hbeats⟩
    · rw [hb] at e
      cases e
    · rw [hb] at e
      cases Option.some.inj e
      refine ⟨hm, hs, ?_⟩
      intro c hc hcs hne
      rcases Bool.eq_false_or_eq_true (claimBetterB n.supports b c) with ht | hf
      · exact ht
      · exact absurd
          (hinj c hc b hm hcs hs (claimBetter_total n.supports c b (hbeats c hc hcs) hf))
          hne
  · constructor
    · intro he c hc hcs
      rcases hbest with ⟨_, hall⟩ | ⟨b', e, hm, hs, _⟩
      · exact hall c hc hcs
      · rw [he] at e
        cases e
    · intro hall
      rcases hbest with ⟨e, _⟩ | ⟨b', e, hm, hs, _⟩
      · exact e
      · exact absurd hs (hall b' hm)
  · intro cs2 hp
    have h2 : IsBestOf n.supports n.claims
        (Node.findBestClaim ⟨n.bestClaim, n.takenOverAt, cs2, n.supports⟩) := by
      apply isBest_perm n.supports hp.symm
      rw [findBest_eq_pick]
      exact pick_isBest n.supports cs2
    exact isBest_unique n.supports n.claims _ _ hinj h2 hbest
  · intro A B hA hB hEA hAcc hOP
    have hBA : claimBetterB n.supports B A = false := by
      simp [claimBetterB, hEA, hAcc, OutPointLess_asymm _ _ hOP]
    have hAB : claimBetterB n.supports A B = true := by
      simp [claimBetterB, hEA, hAcc, hOP]
    constructor
    · rw [findBest_eq_pick]
      simp only [List.foldl]
      simp [pickBetter, hA, hB, hBA]
    · rw [findBest_eq_pick]
      simp only [List.foldl]
      simp [pickBetter, hA, hB, hAB]

/-- Witness for C3 on two concrete Activated claims with equal effective
amount and accepted height: the lexicographically smaller outpoint wins in
both insertion orders. -/
theorem C3_witness :
    Node.findBestClaim ⟨none, 0,
      [⟨⟨[1], 0⟩, [1], 5, [], 3, 0, 0, Status.Activated⟩,
        ⟨⟨[2], 0⟩, [2], 5, [], 3, 0, 0, Status.Activated⟩], []⟩ =
      some ⟨⟨[1], 0⟩, [1], 5, [], 3, 0, 0, Status.Activated⟩ ∧
    Node.findBestClaim ⟨none, 0,
      [⟨⟨[2], 0⟩, [2], 5, [], 3, 0, 0, Status.Activated⟩,
        ⟨⟨[1], 0⟩, [1], 5, [], 3, 0, 0, Status.Activated⟩], []⟩ =
      some ⟨⟨[1], 0⟩, [1], 5, [], 3, 0, 0, Status.Activated⟩ := by
  exact (C3_findBestClaim_max ⟨none, 0, [], []⟩
      (fun a ha => absurd ha (List.not_mem_nil a))).2.2.2
    ⟨⟨[1], 0⟩, [1], 5, [], 3, 0, 0, Status.Activated⟩
    ⟨⟨[2], 0⟩, [2], 5, [], 3, 0, 0, Status.Activated⟩
    rfl rfl rfl rfl (by decide)

/-- Counterexample for C3 as stated: the order is not total on claims, only
on their comparison keys.  Two distinct Activated claims with identical
effective amount, accepted height AND outpoint (differing in claim_id) are
selected by list position: swapping the insertion order changes which claim
findBestClaim returns. -/
theorem C3_counterexample :
    Node.findBestClaim ⟨none, 0,
      [⟨⟨[1], 0⟩, [1], 5, [], 3, 0, 0, Status.Activated⟩,
        ⟨⟨[1], 0⟩, [2], 5, [], 3, 0, 0, Status.Activated⟩], []⟩ =
      some ⟨⟨[1], 0⟩, [1], 5, [], 3, 0, 0, Status.Activated⟩ ∧
    Node.findBestClaim ⟨none, 0,
      [⟨⟨[1], 0⟩, [2], 5, [], 3, 0, 0, Status.Activated⟩,
        ⟨⟨[1], 0⟩, [1], 5, [], 3, 0, 0, Status.Activated⟩], []⟩ =
      some ⟨⟨[1], 0⟩, [2], 5, [], 3, 0, 0, Status.Activated⟩ ∧
    (⟨⟨[1], 0⟩, [1], 5, [], 3, 0, 0, Status.Activated⟩ : Claim) ≠
      ⟨⟨[1], 0⟩, [2], 5, [], 3, 0, 0, Status.Activated⟩ := by
  decide

/-- Helper: the children loop of merkle computes, in order, the independent
per-child recursive results: rewritten children, concatenated buffer
contributions and concatenated writes. -/
theorem merkleL_eq (store : ValStore) (dsha : List Nat → Hash) (pre : Key) :
    ∀ ls : List (Nat × TNode),
      merkleL store dsha pre ls =
        (merkChildren store dsha pre ls, merkChildBuf store dsha pre ls,
          merkChildWrites store dsha pre ls) := by
  intro ls
  induction ls with
  | nil => rfl
  | cons e ls ih =>
    obtain ⟨ch, child⟩ := e
    simp only [merkleL, ih, merkChildren, merkChildBuf, merkChildWrites, List.map_cons,
      List.flatten_cons]

/-- Claim C7: rehashing a dirty node with the value store answering (no
error) builds the buffer from the branch-byte-plus-recursive-hash pairs of
the children in link order, appends the store's hash exactly when the node
has a value and the store found one (a found-nothing answer appends nothing
and neither discards the rehashed children nor prunes the subtree), yields no
hash on an empty buffer, and otherwise hashes the buffer with double-SHA256
and persists (hash, buffer) as the final repo write. -/
theorem C7_merkle_buffer (store : ValStore) (dsha : List Nat → Hash) (pre : Key)
    (hv : Bool) (ls : List (Nat × TNode)) (oh : Option Hash)
    (hstore : hv = true → store pre = Except.ok oh) :
    merkleN store dsha pre (TNode.mk none hv ls) =
      (if merkBuf store dsha pre hv ls oh = [] then
        (TNode.mk none hv (merkChildren store dsha pre ls), none,
          merkChildWrites store dsha pre ls)
      else
        (TNode.mk (some (dsha (merkBuf store dsha pre hv ls oh))) hv
            (merkChildren store dsha pre ls),
          some (dsha (merkBuf store dsha pre hv ls oh)),
          merkChildWrites store dsha pre ls ++
            [(dsha (merkBuf store dsha pre hv ls oh), merkBuf store dsha pre hv ls oh)])) ∧
    (merkleN store dsha pre (TNode.mk none hv ls)).1.links =
      merkChildren store dsha pre ls := by
  have hmain : merkleN store dsha pre (TNode.mk none hv ls) =
      (if merkBuf store dsha pre hv ls oh = [] then
        (TNode.mk none hv (merkChildren store dsha pre ls), none,
          merkChildWrites store dsha pre ls)
      else
        (TNode.mk (some (dsha (merkBuf store dsha pre hv ls oh))) hv
            (merkChildren store dsha pre ls),
          some (dsha (merkBuf store dsha pre hv ls oh)),
          merkChildWrites store dsha pre ls ++
            [(dsha (merkBuf store dsha pre hv ls oh), merkBuf store dsha pre hv ls oh)])) := by
    cases hv with
    | false =>
      simp only [merkleN, merkleL_eq, Bool.false_eq_true, if_false, merkBuf, Option.getD,
        List.append_nil]
    | true =>
      simp only [merkleN, merkleL_eq, if_true, hstore rfl, merkBuf]
  refine ⟨hmain, ?_⟩
  rw [hmain]
  split <;> rfl

/-- Witness for C7 on a dirty valued node with one stored-hash child and a
value store that finds nothing: the children are kept and the hash comes from
the child contribution alone. -/
theorem C7_witness :
    merkleN (fun _ => Except.ok none) (fun b => b) []
        (TNode.mk none true [(5, TNode.mk (some [7, 7]) false [])]) =
      (if merkBuf (fun _ => Except.ok none) (fun b => b) [] true
          [(5, TNode.mk (some [7, 7]) false [])] none = [] then
        (TNode.mk none true
            (merkChildren (fun _ => Except.ok none) (fun b => b) []
              [(5, TNode.mk (some [7, 7]) false [])]),
          none,
          merkChildWrites (fun _ => Except.ok none) (fun b => b) []
            [(5, TNode.mk (some [7, 7]) false [])])
      else
        (TNode.mk
            (some ((fun b => b) (merkBuf (fun _ => Except.ok none) (fun b => b) [] true
              [(5, TNode.mk (some [7, 7]) false [])] none))) true
            (merkChildren (fun _ => Except.ok none) (fun b => b) []
              [(5, TNode.mk (some [7, 7]) false [])]),
          some ((fun b => b) (merkBuf (fun _ => Except.ok none) (fun b => b) [] true
            [(5, TNode.mk (some [7, 7]) false [])] none)),
          merkChildWrites (fun _ => Except.ok none) (fun b => b) []
              [(5, TNode.mk (some [7, 7]) false [])] ++
            [((fun b => b) (merkBuf (fun _ => Except.ok none) (fun b => b) [] true
                [(5, TNode.mk (some [7, 7]) false [])] none),
              merkBuf (fun _ => Except.ok none) (fun b => b) [] true
                [(5, TNode.mk (some [7, 7]) false [])] none)])) ∧
    (merkleN (fun _ => Except.ok none) (fun b => b) []
        (TNode.mk none true [(5, TNode.mk (some [7, 7]) false [])])).1.links =
      merkChildren (fun _ => Except.ok none) (fun b => b) []
        [(5, TNode.mk (some [7, 7]) false [])] :=
  C7_merkle_buffer (fun _ => Except.ok none) (fun b => b) [] true
    [(5, TNode.mk (some [7, 7]) false [])] none (fun _ => rfl)

/-- Helper: reading back the branch just written. -/
theorem getLink_setLink_self (ch : Nat) (t : TNode) :
    ∀ ls : List (Nat × TNode), getLink ch (setLink ch t ls) = some t := by
  intro ls
  induction ls with
  | nil => simp [setLink, getLink]
  | cons e ls ih =>
    obtain ⟨c, u⟩ := e
    by_cases h1 : ch < c
    · simp [setLink, getLink, h1]
    · by_cases h2 : ch = c
      · simp [setLink, getLink, h1, h2]
      · simp only [setLink, getLink, if_neg h1, if_neg h2]
        rw [if_neg (by omega : ¬ c = ch)]
        exact ih

/-- Helper: writing one branch leaves the others unchanged. -/
theorem getLink_setLink_ne (ch c : Nat) (t : TNode) (hne : c ≠ ch) :
    ∀ ls : List (Nat × TNode), getLink c (setLink ch t ls) = getLink c ls := by
  intro ls
  induction ls with
  | nil =>
    simp only [setLink, getLink]
    rw [if_neg (fun h => hne h.symm)]
  | cons e ls ih =>
    obtain ⟨k, u⟩ := e
    by_cases h1 : ch < k
    · simp only [setLink, getLink, if_pos h1]
      rw [if_neg (by omega : ¬ ch = c)]
    · by_cases h2 : ch = k
      · subst h2
        simp only [setLink, getLink, if_neg h1, if_pos rfl]
        rw [if_neg (by omega : ¬ ch = c), if_neg (by omega : ¬ ch = c)]
      · simp only [setLink, getLink, if_neg h1, if_neg h2]
        by_cases h3 : k = c
        · simp [h3]
        · simp only [if_neg h3]
          exact ih

/-- Helper: a dirty node resolves to itself. -/
theorem resolve_dirty (repo : Repo) (hv : Bool) (ls : List (Nat × TNode)) :
    resolve repo (TNode.mk none hv ls) = TNode.mk none hv ls := rfl

/-- Helper: a node whose hash is present is returned by the rehash as-is,
with no repo writes. -/
theorem merkleN_hash_some (store : ValStore) (dsha : List Nat → Hash) (pre : Key)
    (n : TNode) (h : Hash) (hh : n.hash = some h) :
    merkleN store dsha pre n = (n, some h, []) := by
  obtain ⟨oh, hv, ls⟩ := n
  cases oh with
  | none => cases hh
  | some h0 =>
    cases hh
    rfl

/-- Helper: reading a branch of a per-entry-rewritten association list. -/
theorem getLink_map (g : Nat → TNode → TNode) (c : Nat) :
    ∀ ls : List (Nat × TNode),
      getLink c (ls.map (fun e => (e.1, g e.1 e.2))) = Option.map (g c) (getLink c ls) := by
  intro ls
  induction ls with
  | nil => rfl
  | cons e ls ih =>
    obtain ⟨k, u⟩ := e
    by_cases h1 : k = c
    · subst h1
      simp [getLink]
    · simp only [List.map_cons, getLink, if_neg h1]
      exact ih

/-- Helper: the links of a rehashed dirty node, read at one branch. -/
theorem getLink_merkle_links (store : ValStore) (dsha : List Nat → Hash) (pre : Key)
    (hv : Bool) (ls : List (Nat × TNode)) (c : Nat) :
    getLink c ((merkleN store dsha pre (TNode.mk none hv ls)).1).links =
      Option.map (fun t => (merkleN store dsha (pre ++ [c]) t).1) (getLink c ls) := by
  have hlinks : ((merkleN store dsha pre (TNode.mk none hv ls)).1).links =
      merkChildren store dsha pre ls := by
    simp only [merkleN, merkleL_eq]
    cases hstore : (if hv = true then store pre else Except.ok none) with
    | error e => rfl
    | ok oh =>
      dsimp only
      split <;> rfl
  rw [hlinks]
  exact getLink_map (fun k t => (merkleN store dsha (pre ++ [k]) t).1) c ls

/-- Helper: one step of position lookup. -/
theorem lookupNode_cons (n : TNode) (c : Nat) (rest : List Nat) :
    lookupNode n (c :: rest) =
      match getLink c n.links with
      | none => none
      | some m => lookupNode m rest := by
  obtain ⟨h, v, l⟩ := n
  rfl

/-- Helper: after Update, every position on the root-to-key path exists and
is dirty. -/
theorem update_path_dirty (repo : Repo) :
    ∀ (key : Key) (T : TNode) (p : List Nat), PathPre p key →
      ∃ m, lookupNode (trieUpdate repo key T) p = some m ∧ m.hash = none := by
  intro key
  induction key with
  | nil =>
    intro T p hp
    obtain ⟨t, ht⟩ := hp
    have hp0 : p = [] := by
      cases p with
      | nil => rfl
      | cons a b => cases ht
    subst hp0
    exact ⟨_, rfl, rfl⟩
  | cons k krest ih =>
    intro T p hp
    cases p with
    | nil => exact ⟨_, rfl, rfl⟩
    | cons c prest =>
      obtain ⟨t, ht⟩ := hp
      rw [List.cons_append] at ht
      injection ht with h1 h2
      subst h1
      show ∃ m, lookupNode (TNode.mk none (resolve repo T).hasValue
        (setLink c (trieUpdate repo krest ((getLink c (resolve repo T).links).getD newTNode))
          (resolve repo T).links)) (c :: prest) = some m ∧ m.hash = none
      rw [lookupNode_cons]
      simp only [TNode.links, getLink_setLink_self]
      exact ih _ prest ⟨t, h2⟩

/-- Helper: when every node on the key's path in T resolves to itself,
Update leaves every off-path position exactly as it was. -/
theorem update_off_path (repo : Repo) :
    ∀ (key : Key) (T : TNode),
      (∀ p m, PathPre p key → lookupNode T p = some m → resolve repo m = m) →
      ∀ p, ¬ PathPre p key → lookupNode (trieUpdate repo key T) p = lookupNode T p := by
  intro key
  induction key with
  | nil =>
    intro T hres p hp
    have hT : resolve repo T = T := hres [] T ⟨[], rfl⟩ rfl
    cases p with
    | nil => exact absurd ⟨[], rfl⟩ hp
    | cons c rest =>
      show lookupNode (TNode.mk none true (resolve repo T).links) (c :: rest) = _
      rw [hT, lookupNode_cons, lookupNode_cons]
      simp only [TNode.links]
  | cons k krest ih =>
    intro T hres p hp
    obtain ⟨th, tv, tls⟩ := T
    have hT : resolve repo (TNode.mk th tv tls) = TNode.mk th tv tls :=
      hres [] _ ⟨k :: krest, rfl⟩ rfl
    cases p with
    | nil => exact absurd ⟨k :: krest, rfl⟩ hp
    | cons c rest =>
      show lookupNode (TNode.mk none (resolve repo (TNode.mk th tv tls)).hasValue
        (setLink k (trieUpdate repo krest
          ((getLink k (resolve repo (TNode.mk th tv tls)).links).getD newTNode))
          (resolve repo (TNode.mk th tv tls)).links)) (c :: rest) = _
      rw [hT, lookupNode_cons, lookupNode_cons]
      simp only [TNode.links]
      by_cases hck : c = k
      · subst hck
        rw [getLink_setLink_self]
        dsimp only
        have hrest : ¬ PathPre rest krest := fun hq => by
          obtain ⟨t, ht⟩ := hq
          exact hp ⟨t, by rw [List.cons_append, ht]⟩
        cases hchild : getLink c tls with
        | some child0 =>
          dsimp only [Option.getD]
          have hres0 : ∀ q m, PathPre q krest → lookupNode child0 q = some m →
              resolve repo m = m := by
            intro q m hq hm
            refine hres (c :: q) m ?_ ?_
            · obtain ⟨t, ht⟩ := hq
              exact ⟨t, by rw [List.cons_append, ht]⟩
            · rw [lookupNode_cons]
              simp only [TNode.links, hchild]
              exact hm
          rw [ih child0 hres0 rest hrest]
        | none =>
          dsimp only [Option.getD]
          have hres0 : ∀ q m, PathPre q krest → lookupNode newTNode q = some m →
              resolve repo m = m := by
            intro q m hq hm
            cases q with
            | nil =>
              rw [← Option.some.inj hm]
              rfl
            | cons a b => exact absurd hm (by rw [lookupNode_cons]; exact fun h => nomatch h)
          rw [ih newTNode hres0 rest hrest]
          cases rest with
          | nil => exact absurd ⟨krest, rfl⟩ hrest
          | cons r1 r2 =>
            rw [lookupNode_cons]
            rfl
      · rw [getLink_setLink_ne _ _ _ hck]

/-- Helper: along a path whose proper ancestors are all dirty, the node of
the rehashed tree at the path end is the recursive rehash of the original
node there. -/
theorem lookup_merkle_on_dirty_path (store : ValStore) (dsha : List Nat → Hash) :
    ∀ (p : List Nat) (n : TNode) (pre : List Nat),
      (∀ q, PathPre q p → q ≠ p → ∃ m0, lookupNode n q = some m0 ∧ m0.hash = none) →
      ∀ m, lookupNode n p = some m →
      lookupNode ((merkleN store dsha pre n).1) p =
        some ((merkleN store dsha (pre ++ p) m).1) := by
  intro p
  induction p with
  | nil =>
    intro n pre hanc m hm
    have hm' : m = n := (Option.some.inj hm).symm
    subst hm'
    rw [List.append_nil]
    rfl
  | cons c rest ih =>
    intro n pre hanc m hm
    obtain ⟨nh, nv, nls⟩ := n
    have hdirty : nh = none := by
      obtain ⟨m0, hm0, hh0⟩ := hanc [] ⟨c :: rest, rfl⟩ (by simp)
      have : TNode.mk nh nv nls = m0 := Option.some.inj hm0
      rw [← this] at hh0
      exact hh0
    subst hdirty
    rw [lookupNode_cons] at hm
    simp only [TNode.links] at hm
    cases hchild : getLink c nls with
    | none =>
      rw [hchild] at hm
      cases hm
    | some child =>
      rw [hchild] at hm
      dsimp only at hm
      rw [lookupNode_cons, getLink_merkle_links, hchild]
      dsimp only [Option.map]
      have hanc0 : ∀ q, PathPre q rest → q ≠ rest →
          ∃ m0, lookupNode child q = some m0 ∧ m0.hash = none := by
        intro q hq hne
        obtain ⟨t, ht⟩ := hq
        refine hanc (c :: q) ⟨t, by rw [List.cons_append, ht]⟩
          (fun he => hne (by simpa using he)) |>.imp ?_
        intro m0 hm0
        refine ⟨?_, hm0.2⟩
        rw [lookupNode_cons] at hm0
        simp only [TNode.links, hchild] at hm0
        exact hm0.1
      have hrec := ih child (pre ++ [c]) hanc0 m hm
      rw [List.append_assoc] at hrec
      exact hrec

/-- Helper: along a dirty path, a hanging subtree whose root hash is present
is returned by the rehash entirely unchanged. -/
theorem lookup_merkle_divergent (store : ValStore) (dsha : List Nat → Hash) :
    ∀ (q : List Nat) (c : Nat) (n : TNode) (pre : List Nat),
      (∀ r, PathPre r q → ∃ m0, lookupNode n r = some m0 ∧ m0.hash = none) →
      ∀ m h, lookupNode n (q ++ [c]) = some m → m.hash = some h →
      lookupNode ((merkleN store dsha pre n).1) (q ++ [c]) = some m := by
  intro q
  induction q with
  | nil =>
    intro c n pre hanc m h hm hh
    obtain ⟨nh, nv, nls⟩ := n
    have hdirty : nh = none := by
      obtain ⟨m0, hm0, hh0⟩ := hanc [] ⟨[], rfl⟩
      have : TNode.mk nh nv nls = m0 := Option.some.inj hm0
      rw [← this] at hh0
      exact hh0
    subst hdirty
    simp only [List.nil_append] at hm ⊢
    rw [lookupNode_cons] at hm
    simp only [TNode.links] at hm
    cases hchild : getLink c nls with
    | none =>
      rw [hchild] at hm
      cases hm
    | some child =>
      rw [hchild] at hm
      dsimp only at hm
      have hcm : child = m := Option.some.inj hm
      subst hcm
      rw [lookupNode_cons, getLink_merkle_links, hchild]
      dsimp only [Option.map]
      rw [merkleN_hash_some store dsha (pre ++ [c]) child h hh]
      rfl
  | cons a qtail ih =>
    intro c n pre hanc m h hm hh
    obtain ⟨nh, nv, nls⟩ := n
    have hdirty : nh = none := by
      obtain ⟨m0, hm0, hh0⟩ := hanc [] ⟨a :: qtail, rfl⟩
      have : TNode.mk nh nv nls = m0 := Option.some.inj hm0
      rw [← this] at hh0
      exact hh0
    subst hdirty
    rw [List.cons_append] at hm ⊢
    rw [lookupNode_cons] at hm
    simp only [TNode.links] at hm
    cases hchild : getLink a nls with
    | none =>
      rw [hchild] at hm
      cases hm
    | some child =>
      rw [hchild] at hm
      dsimp only at hm
      rw [lookupNode_cons, getLink_merkle_links, hchild]
      dsimp only [Option.map]
      refine ih c child (pre ++ [a]) ?_ m h hm hh
      intro r hr
      obtain ⟨t, ht⟩ := hr
      refine hanc (a :: r) ⟨t, by rw [List.cons_append, ht]⟩ |>.imp ?_
      intro m0 hm0
      refine ⟨?_, hm0.2⟩
      rw [lookupNode_cons] at hm0
      simp only [TNode.links, hchild] at hm0
      exact hm0.1

/-- Claim C6: after Update(key) followed by the root rehash, every position
on the root-to-key path exists, was dirtied by Update, and carries in the
rehashed tree the freshly recomputed node of the dirty one; every off-path
position is left by Update exactly as it was; and every subtree hanging off
the path whose root hash is present is returned by the rehash entirely
unchanged, its stored hash reused with no recursion and no repo writes.  The
hypothesis states the Update precondition that the nodes along the key path
are materialized in memory (each resolves to itself). -/
theorem C6_path_local_rehash (repo : Repo) (store : ValStore) (dsha : List Nat → Hash)
    (key : Key) (T : TNode)
    (hres : ∀ p m, PathPre p key → lookupNode T p = some m → resolve repo m = m) :
    (∀ p, PathPre p key →
      ∃ m, lookupNode (trieUpdate repo key T) p = some m ∧ m.hash = none ∧
        lookupNode ((merkleN store dsha [] (trieUpdate repo key T)).1) p =
          some ((merkleN store dsha p m).1)) ∧
    (∀ p, ¬ PathPre p key →
      lookupNode (trieUpdate repo key T) p = lookupNode T p) ∧
    (∀ q c m h, PathPre q key → ¬ PathPre (q ++ [c]) key →
      lookupNode (trieUpdate repo key T) (q ++ [c]) = some m → m.hash = some h →
      lookupNode ((merkleN store dsha [] (trieUpdate repo key T)).1) (q ++ [c]) = some m ∧
      merkleN store dsha (q ++ [c]) m = (m, some h, [])) := by
  refine ⟨?_, update_off_path repo key T hres, ?_⟩
  · intro p hp
    obtain ⟨m, hm, hdirty⟩ := update_path_dirty repo key T p hp
    refine ⟨m, hm, hdirty, ?_⟩
    have hanc : ∀ q, PathPre q p → q ≠ p →
        ∃ m0, lookupNode (trieUpdate repo key T) q = some m0 ∧ m0.hash = none := by
      intro q hq _
      obtain ⟨t1, ht1⟩ := hq
      obtain ⟨t2, ht2⟩ := hp
      exact update_path_dirty repo key T q
        ⟨t1 ++ t2, by rw [← List.append_assoc, ht1, ht2]⟩
    have hmain := lookup_merkle_on_dirty_path store dsha p (trieUpdate repo key T) []
      hanc m hm
    rwa [List.nil_append] at hmain
  · intro q c m h hq hqc hm hh
    constructor
    · refine lookup_merkle_divergent store dsha q c (trieUpdate repo key T) [] ?_ m h hm hh
      intro r hr
      obtain ⟨t1, ht1⟩ := hr
      obtain ⟨t2, ht2⟩ := hq
      exact update_path_dirty repo key T r
        ⟨t1 ++ t2, by rw [← List.append_assoc, ht1, ht2]⟩
    · exact merkleN_hash_some store dsha (q ++ [c]) m h hh

/-- Witness for C6 on a fresh trie (sentinel root, empty repo) updated at the
one-byte key 7: the key position exists, is dirty after Update, and its node
in the rehashed tree is the fresh recomputation. -/
theorem C6_witness :
    ∃ m, lookupNode (trieUpdate (fun _ => none) [7] newTrieRoot) [7] = some m ∧
      m.hash = none ∧
      lookupNode ((merkleN (fun _ => Except.ok none) (fun b => b) []
          (trieUpdate (fun _ => none) [7] newTrieRoot)).1) [7] =
        some ((merkleN (fun _ => Except.ok none) (fun b => b) [7] m).1) :=
  (C6_path_local_rehash (fun _ => none) (fun _ => Except.ok none) (fun b => b) [7]
    newTrieRoot (fun p m hp hm => by
      cases p with
      | nil =>
        rw [← Option.some.inj hm]
        rfl
      | cons a b =>
        exact absurd hm (by rw [lookupNode_cons]; exact fun hx => nomatch hx))).1
    [7] ⟨[], rfl⟩
